import Mathlib

/-!
Verification of the BGZIP data chunk source
(`cpp/src/io/text/bgzip_data_chunk_source.cu`).

This file gives a shallow embedding of the reader logic of
`bgzip_data_chunk_reader` and `decompression_blocks` and proves the
specification claims about it.

Modelling conventions:
* Bytes are `Nat` values (a well-formed stream has all values `< 256`).
* The host `std::istream` is a `ByteStream`: an immutable byte list, a read
  position and the `eofbit` flag.  `exceptions(failbit)` semantics are
  modelled by returning `Except Err`: any failed read throws, aborting the
  whole operation, so post-error states are unobservable.
* `std::size_t` quantities (offsets, sizes, read positions) are modelled as
  `Nat`; wrap-around at 2^64 is not modelled (it is unreachable in the flows
  the claims cover, see the invariant proofs).  `uint16_t` arithmetic in the
  header scan is modelled exactly (mod 65536), and parsed integer fields are
  genuine 16/32-bit values on well-formed byte streams.
* Device buffers and asynchronous copies: the GPU-resident buffers of a block
  group are byte lists; copies are modelled as their synchronous functional
  effect.  `cudaEventRecord`/`cudaEventSynchronize` order device work against
  buffer reuse and have no observable effect in this sequential model.
* The external decompression backend (`nvcomp batched_decompress` /
  `gpuinflate`) is a parameter `backend : List Nat -> List Nat` applied to
  each block's compressed payload; its output is truncated / zero-padded to
  the destination span size (uninitialized device bytes are modelled as 0).
  Claims that need a correct backend carry the per-block correctness
  assumption explicitly.
-/

namespace BgzipVerify

/-- Errors surfaced by the reader.  `ioError` models the `std::ios_base::failure`
thrown via `exceptions(failbit)` on a failed read, `cudfError` models
`cudf::logic_error` thrown by `CUDF_EXPECTS` / `CUDF_FAIL` with the source's
message, `allocError` models a host allocation failure. -/
inductive Err where
  | ioError : Err
  | cudfError : String → Err
  | allocError : Err
  deriving DecidableEq, Repr

/-- A seekable, peekable host byte stream (`std::istream` over a file's bytes).
`data` is the full file content, `pos` the get position, `eofbit` the stream's
EOF flag. -/
structure ByteStream where
  data : List Nat
  pos : Nat
  eofbit : Bool
  deriving DecidableEq, Repr

/-- `istream::read(buf, n)`: fails (throws, because failbit-exceptions are
enabled) when the eofbit is already set or fewer than `n` bytes remain;
otherwise returns the `n` bytes at the current position and advances. -/
def sread (n : Nat) (s : ByteStream) : Except Err (List Nat × ByteStream) :=
  if s.eofbit then .error .ioError
  else if s.pos + n ≤ s.data.length then
    .ok ((s.data.drop s.pos).take n, { s with pos := s.pos + n })
  else .error .ioError

/-- `istream::peek()`: fails if the eofbit is already set (the sentry fails and
sets failbit, which throws); at end of data it sets the eofbit; otherwise it is
a no-op. -/
def speek (s : ByteStream) : Except Err ByteStream :=
  if s.eofbit then .error .ioError
  else if s.pos < s.data.length then .ok s
  else .ok { s with eofbit := true }

/-- `istream::seekg(off, cur)`: clears the eofbit and moves the get position.
All seeks performed by the reader target non-negative positions; the `toNat`
clamp is never exercised on those flows. -/
def seekCur (off : Int) (s : ByteStream) : ByteStream :=
  { s with pos := ((s.pos : Int) + off).toNat, eofbit := false }

/-- `read_int<IntType>`: `std::memcpy` of the bytes into an integer, as
executed on a little-endian host (the configuration the source assumes, per
its comment).  The value is the little-endian assembly of the bytes. -/
def read_int : List Nat → Nat
  | [] => 0
  | b :: bs => b + 256 * read_int bs

/-- `read_int` as executed on a host of either endianness: `std::memcpy` into
an integer object reads the bytes in the host's memory order, so on a
big-endian host the first byte becomes the most significant one. -/
def read_int_native (bigEndian : Bool) (bytes : List Nat) : Nat :=
  if bigEndian then read_int bytes.reverse else read_int bytes

/-- The value the spec prescribes for multi-byte fields: the positional
little-endian sum of the bytes, `Σ byte[i] * 256^i`. -/
def le_value (bytes : List Nat) : Nat :=
  (((List.range bytes.length).map fun i => bytes.getD i 0 * 256 ^ i)).sum

/-- Parsed BGZIP header data (`bgzip_header`). -/
structure bgzip_header where
  block_size : Nat
  extra_length : Nat
  deriving DecidableEq, Repr

/-- `bgzip_header::data_size`: `block_size - extra_length - 20` as C++ `int`
arithmetic (may be negative on malformed headers). -/
def bgzip_header.data_size (h : bgzip_header) : Int :=
  (h.block_size : Int) - (h.extra_length : Int) - 20

/-- Parsed BGZIP footer data (`bgzip_footer`). -/
structure bgzip_footer where
  decompressed_size : Nat
  deriving DecidableEq, Repr

/-- The extra-subfield scan loop inside `read_header`.  `extra_offset` is a
C++ `uint16_t`, so its updates wrap mod 65536; `remaining_size` is computed in
`int` arithmetic.  The recursion is bounded by `fuel`; each iteration consumes
at least 4 stream bytes, so any fuel exceeding the stream length is enough and
the fuel-exhaustion branch is unreachable for the wrappers below. -/
def scan_subfields (extra_length : Nat) : Nat → Nat → ByteStream →
    Except Err (bgzip_header × ByteStream)
  | 0, _, _ => .error .ioError
  | fuel + 1, extra_offset, s =>
    if extra_offset < extra_length then
      -- remaining_size = extra_length - extra_offset ≥ 1 here (int arithmetic)
      let remaining_size : Int := (extra_length : Int) - (extra_offset : Int)
      if remaining_size < 4 then .error (.cudfError "invalid extra field length")
      else
        match sread 4 s with
        | .error e => .error e
        | .ok (buf, s1) =>
          let extra_offset1 := (extra_offset + 4) % 65536
          let subfield_size := read_int (buf.drop 2)
          if buf.getD 0 0 = 66 ∧ buf.getD 1 0 = 67 then
            if subfield_size = 2 then
              match sread 2 s1 with
              | .error e => .error e
              | .ok (buf2, s2) =>
                .ok ({ block_size := read_int buf2 + 1, extra_length := extra_length },
                     seekCur (remaining_size - 6) s2)
            else .error (.cudfError "malformed BGZIP extra subfield")
          else
            scan_subfields extra_length fuel
              ((extra_offset1 + subfield_size) % 65536)
              (seekCur (subfield_size : Int) s1)
    else .error (.cudfError "missing BGZIP size extra subfield")

/-- `bgzip_data_chunk_reader::read_header`: reads the fixed 12-byte prefix,
validates the magic, and scans the extra subfields for the BGZIP block-size
subfield. -/
def read_header (s : ByteStream) : Except Err (bgzip_header × ByteStream) :=
  match sread 12 s with
  | .error e => .error e
  | .ok (buffer, s1) =>
    if buffer.take 4 = [31, 139, 8, 4] then
      scan_subfields (read_int ((buffer.drop 10).take 2)) (s1.data.length + 1) 0 s1
    else .error (.cudfError "malformed BGZIP header")

/-- `bgzip_data_chunk_reader::read_footer`: reads the fixed 8-byte suffix and
returns the little-endian uint32 decompressed size from bytes 4..7. -/
def read_footer (s : ByteStream) : Except Err (bgzip_footer × ByteStream) :=
  match sread 8 s with
  | .error e => .error e
  | .ok (buffer, s1) =>
    .ok ({ decompressed_size := read_int ((buffer.drop 4).take 4) }, s1)

/-- Sub-list extraction `l[start .. start+len)`, the functional effect of a
device memory copy of `len` bytes starting at offset `start`. -/
def extractBytes (l : List Nat) (start len : Nat) : List Nat :=
  (l.drop start).take len

/-- Pad or truncate a decompression output to the destination span size
(a device span has a fixed size; unwritten bytes are modelled as 0). -/
def fitSpan (spanSize : Nat) (out : List Nat) : List Nat :=
  out.take spanSize ++ List.replicate (spanSize - out.length) 0

/-- State of one block group (`decompression_blocks`).  Host pinned buffers,
their device mirrors, the per-block span table and derived scalars.  The
per-block `compression_result` array is tracked by its size only: its contents
are written by the device backend and never read at this layer. -/
structure decompression_blocks where
  h_compressed_blocks : List Nat
  h_compressed_offsets : List Nat
  h_decompressed_offsets : List Nat
  d_compressed_blocks : List Nat
  d_decompressed_blocks : List Nat
  d_compressed_offsets : List Nat
  d_decompressed_offsets : List Nat
  d_spans : List ((Nat × Nat) × (Nat × Nat))
  d_results_len : Nat
  compressed_size_with_headers : Nat
  max_decompressed_size : Nat
  available_decompressed_size : Nat
  read_pos : Nat
  is_decompressed : Bool
  deriving DecidableEq, Repr

namespace decompression_blocks

/-- The freshly constructed group: empty buffers, offset tables holding the
single sentinel 0. -/
def init : decompression_blocks :=
  { h_compressed_blocks := []
    h_compressed_offsets := [0]
    h_decompressed_offsets := [0]
    d_compressed_blocks := []
    d_decompressed_blocks := []
    d_compressed_offsets := []
    d_decompressed_offsets := []
    d_spans := []
    d_results_len := 0
    compressed_size_with_headers := 0
    max_decompressed_size := 0
    available_decompressed_size := 0
    read_pos := 0
    is_decompressed := false }

/-- `num_blocks()`: `h_compressed_offsets.size() - 1`. -/
def num_blocks (g : decompression_blocks) : Nat :=
  g.h_compressed_offsets.length - 1

/-- `compressed_size()`: `h_compressed_offsets.back()`. -/
def compressed_size (g : decompression_blocks) : Nat :=
  g.h_compressed_offsets.getLastD 0

/-- `decompressed_size()`: `h_decompressed_offsets.back()`. -/
def decompressed_size (g : decompression_blocks) : Nat :=
  g.h_decompressed_offsets.getLastD 0

/-- `remaining_size()`: `available_decompressed_size - read_pos`.  The C++
subtraction is on `size_t`; the invariant `read_pos ≤ available_decompressed_size`
(claim C9) keeps it equal to this truncated `Nat` subtraction on every state
the reader produces. -/
def remaining_size (g : decompression_blocks) : Nat :=
  g.available_decompressed_size - g.read_pos

/-- `read_block`: grows the host compressed buffer by `data_size` bytes read
from the stream.  A negative `data_size` makes the C++ `resize` request wrap to
an astronomically large size and fail to allocate, modelled as `allocError`. -/
def read_block (g : decompression_blocks) (h : bgzip_header) (s : ByteStream) :
    Except Err (decompression_blocks × ByteStream) :=
  if h.data_size < 0 then .error .allocError
  else
    match sread h.data_size.toNat s with
    | .error e => .error e
    | .ok (bytes, s1) =>
      .ok ({ g with h_compressed_blocks := g.h_compressed_blocks ++ bytes }, s1)

/-- `add_block_offsets`: records the parsed block in the scalar maximum and in
both cumulative offset tables.  The compressed push is `size_t + int`; its
value is modelled through `Int` (the negative-`data_size` wrap cannot be
reached because `read_block` fails first on such headers). -/
def add_block_offsets (g : decompression_blocks) (h : bgzip_header)
    (f : bgzip_footer) : decompression_blocks :=
  { g with
    max_decompressed_size := max f.decompressed_size g.max_decompressed_size
    h_compressed_offsets :=
      g.h_compressed_offsets ++ [((g.compressed_size : Int) + h.data_size).toNat]
    h_decompressed_offsets :=
      g.h_decompressed_offsets ++ [g.decompressed_size + f.decompressed_size] }

/-- `consume_bytes`: bounds-checked advance of `read_pos`. -/
def consume_bytes (g : decompression_blocks) (size : Nat) :
    Except Err decompression_blocks :=
  if size ≤ g.remaining_size then .ok { g with read_pos := g.read_pos + size }
  else .error (.cudfError "out of bounds")

/-- The compressed payload of block `i` inside the concatenated host buffer. -/
def blockSlice (g : decompression_blocks) (i : Nat) : List Nat :=
  extractBytes g.h_compressed_blocks (g.h_compressed_offsets.getD i 0)
    (g.h_compressed_offsets.getD (i + 1) 0 - g.h_compressed_offsets.getD i 0)

/-- The decompressed span size of block `i`. -/
def blockSpanSize (g : decompression_blocks) (i : Nat) : Nat :=
  g.h_decompressed_offsets.getD (i + 1) 0 - g.h_decompressed_offsets.getD i 0

/-- `decompress(stream)`: no-op if already decompressed, otherwise copies the
host buffers to the device, builds the per-block span table (the
`bgzip_nvcomp_transform_functor` zip-transform, spans as offset/length pairs)
and runs the backend over every block, filling the device decompressed buffer
span by span.  The backend launch itself is guarded by
`decompressed_size() > 0`; with a total size of 0 every span is empty, so the
buffer contents below are the same either way. -/
def decompress (backend : List Nat → List Nat) (g : decompression_blocks) :
    decompression_blocks :=
  if g.is_decompressed then g
  else
    { g with
      d_compressed_blocks := g.h_compressed_blocks
      d_compressed_offsets := g.h_compressed_offsets
      d_decompressed_offsets := g.h_decompressed_offsets
      d_spans :=
        (List.range g.num_blocks).map fun i =>
          ((g.h_compressed_offsets.getD i 0,
            g.h_compressed_offsets.getD (i + 1) 0 - g.h_compressed_offsets.getD i 0),
           (g.h_decompressed_offsets.getD i 0, g.blockSpanSize i))
      d_results_len := g.num_blocks
      d_decompressed_blocks :=
        (((List.range g.num_blocks).map fun i =>
          fitSpan (g.blockSpanSize i) (backend (g.blockSlice i)))).flatten
      is_decompressed := true }

/-- Whether a call to `decompress` on state `g` launches the device backend
(the call-count hook of the tests): only when the group is not yet decompressed
and has a nonzero total decompressed size. -/
def launches_backend (g : decompression_blocks) : Bool :=
  !g.is_decompressed && decide (0 < g.decompressed_size)

/-- `reset()`: clears the buffers (keeping the leading sentinel of each offset
table), zeroes the scalars and the memoization flag. -/
def reset (g : decompression_blocks) : decompression_blocks :=
  { h_compressed_blocks := []
    h_compressed_offsets := g.h_compressed_offsets.take 1
    h_decompressed_offsets := g.h_decompressed_offsets.take 1
    d_compressed_blocks := []
    d_decompressed_blocks := []
    d_compressed_offsets := []
    d_decompressed_offsets := []
    d_spans := []
    d_results_len := 0
    compressed_size_with_headers := 0
    max_decompressed_size := 0
    available_decompressed_size := 0
    read_pos := 0
    is_decompressed := false }

end decompression_blocks

/-- Reader state (`bgzip_data_chunk_reader`): the stream, the two block groups
and the virtual-range bookkeeping. -/
structure reader_state where
  data_stream : ByteStream
  prev_blocks : decompression_blocks
  curr_blocks : decompression_blocks
  local_end : Nat
  compressed_pos : Nat
  compressed_end : Nat
  deriving DecidableEq, Repr

/-- The accumulation loop of `read_next_compressed_chunk`: parse blocks into
the current group until enough decompressed data is staged or end of
range/stream.  Fuel-bounded; each iteration consumes at least one stream byte,
so any fuel exceeding the stream length makes the 0-branch unreachable. -/
def read_chunk_loop (requested_size : Nat) : Nat → reader_state →
    Except Err reader_state
  | 0, _ => .error .ioError
  | fuel + 1, r =>
    if r.curr_blocks.decompressed_size < requested_size then
      -- calling peek on an already EOF stream causes it to fail, avoid that
      if r.data_stream.eofbit then .ok r
      else
        match speek r.data_stream with
        | .error e => .error e
        | .ok s1 =>
          if s1.eofbit ∨ r.compressed_pos > r.compressed_end then
            .ok { r with data_stream := s1 }
          else
            match read_header s1 with
            | .error e => .error e
            | .ok (header, s2) =>
              match r.curr_blocks.read_block header s2 with
              | .error e => .error e
              | .ok (cb1, s3) =>
                match read_footer s3 with
                | .error e => .error e
                | .ok (footer, s4) =>
                  let cb2 := cb1.add_block_offsets header footer
                  -- for the last GZIP block, restrict to the bytes up to
                  -- _local_end, for the reader only, not for decompression
                  if r.compressed_pos = r.compressed_end then
                    .ok { r with
                          data_stream := s4
                          curr_blocks := { cb2 with
                            available_decompressed_size :=
                              cb2.available_decompressed_size + r.local_end }
                          compressed_pos := r.compressed_pos + header.block_size }
                  else
                    read_chunk_loop requested_size fuel
                      { r with
                        data_stream := s4
                        curr_blocks := { cb2 with
                          available_decompressed_size :=
                            cb2.available_decompressed_size + footer.decompressed_size }
                        compressed_pos := r.compressed_pos + header.block_size }
    else .ok r

/-- `read_next_compressed_chunk`: swap the groups, wait for the new current
group's outstanding device work (`cudaEventSynchronize`, no observable effect
here), reset it and run the accumulation loop. -/
def read_next_compressed_chunk (requested_size : Nat) (r : reader_state) :
    Except Err reader_state :=
  let r1 : reader_state :=
    { r with curr_blocks := r.prev_blocks, prev_blocks := r.curr_blocks }
  let r2 : reader_state := { r1 with curr_blocks := r1.curr_blocks.reset }
  read_chunk_loop requested_size (r2.data_stream.data.length + 1) r2

/-- `chunk_load_size`: 16 MB default load granularity. -/
def chunk_load_size : Nat := 2 ^ 24

/-- The reader constructor: split the virtual offsets, seek to the compressed
begin offset, load the first blocks, then validate and consume the local begin
offset. -/
def mk_reader (virtual_begin virtual_end : Nat) (data : List Nat) :
    Except Err reader_state :=
  let s0 : ByteStream := { data := data, pos := 0, eofbit := false }
  let r0 : reader_state :=
    { data_stream := seekCur ((virtual_begin / 65536 : Nat) : Int) s0
      prev_blocks := decompression_blocks.init
      curr_blocks := decompression_blocks.init
      local_end := virtual_end % 65536
      compressed_pos := virtual_begin / 65536
      compressed_end := virtual_end / 65536 }
  match read_next_compressed_chunk chunk_load_size r0 with
  | .error e => .error e
  | .ok r1 =>
    let local_pos := virtual_begin % 65536
    if local_pos > 0 then
      if r1.curr_blocks.h_compressed_offsets.length > 1 ∧
          local_pos < r1.curr_blocks.h_compressed_offsets.getD 1 0 then
        match r1.curr_blocks.consume_bytes local_pos with
        | .error e => .error e
        | .ok cb => .ok { r1 with curr_blocks := cb }
      else .error (.cudfError "local part of virtual offset is out of bounds")
    else .ok r1

/-- The loop of `skip_bytes`: drain the current group and load the next chunk
until the remaining skip amount fits, or end of range/stream. Returns the
remaining skip amount together with the state. -/
def skip_loop : Nat → Nat → reader_state → Except Err (Nat × reader_state)
  | 0, _, _ => .error .ioError
  | fuel + 1, read_size, r =>
    if read_size > r.curr_blocks.remaining_size then
      let read_size1 := read_size - r.curr_blocks.remaining_size
      match r.curr_blocks.consume_bytes r.curr_blocks.remaining_size with
      | .error e => .error e
      | .ok cb =>
        match read_next_compressed_chunk chunk_load_size { r with curr_blocks := cb } with
        | .error e => .error e
        | .ok r1 =>
          -- calling peek on an already EOF stream causes it to fail, avoid that
          if r1.data_stream.eofbit then .ok (read_size1, r1)
          else
            match speek r1.data_stream with
            | .error e => .error e
            | .ok s1 =>
              if s1.eofbit ∨ r1.compressed_pos > r1.compressed_end then
                .ok (read_size1, { r1 with data_stream := s1 })
              else skip_loop fuel read_size1 { r1 with data_stream := s1 }
    else .ok (read_size, r)

/-- `skip_bytes`: run the drain loop, then consume the capped remainder. -/
def skip_bytes (read_size : Nat) (r : reader_state) : Except Err reader_state :=
  match skip_loop (r.data_stream.data.length + 1) read_size r with
  | .error e => .error e
  | .ok (rs, r1) =>
    match r1.curr_blocks.consume_bytes (min rs r1.curr_blocks.remaining_size) with
    | .error e => .error e
    | .ok cb => .ok { r1 with curr_blocks := cb }

/-- `get_next_chunk`: serve `read_size` bytes from the current group if they
fit in its remaining range, otherwise load the next chunk and serve across the
previous/current group boundary, clamping to what both groups jointly hold. -/
def get_next_chunk (backend : List Nat → List Nat) (read_size : Nat)
    (r : reader_state) : Except Err (List Nat × reader_state) :=
  if read_size ≤ r.curr_blocks.remaining_size then
    let cb := r.curr_blocks.decompress backend
    let data := extractBytes cb.d_decompressed_blocks cb.read_pos read_size
    match cb.consume_bytes read_size with
    | .error e => .error e
    | .ok cb2 => .ok (data, { r with curr_blocks := cb2 })
  else
    match read_next_compressed_chunk read_size r with
    | .error e => .error e
    | .ok r1 =>
      let pb := r1.prev_blocks.decompress backend
      let cb := r1.curr_blocks.decompress backend
      let size2 := min read_size (pb.remaining_size + cb.remaining_size)
      let data :=
        extractBytes pb.d_decompressed_blocks pb.read_pos pb.remaining_size ++
        extractBytes cb.d_decompressed_blocks cb.read_pos (size2 - pb.remaining_size)
      match pb.consume_bytes pb.remaining_size with
      | .error e => .error e
      | .ok pb2 =>
        match cb.consume_bytes (size2 - pb.remaining_size) with
        | .error e => .error e
        | .ok cb2 => .ok (data, { r1 with prev_blocks := pb2, curr_blocks := cb2 })

/-- Repeatedly call `get_next_chunk` with the given request sizes, collecting
the returned buffers. -/
def run_chunks (backend : List Nat → List Nat) :
    List Nat → reader_state → Except Err (List (List Nat) × reader_state)
  | [], r => .ok ([], r)
  | n :: rest, r =>
    match get_next_chunk backend n r with
    | .error e => .error e
    | .ok (chunk, r1) =>
      match run_chunks backend rest r1 with
      | .error e => .error e
      | .ok (chunks, r2) => .ok (chunk :: chunks, r2)

end BgzipVerify

namespace BgzipVerify

/-! ## Well-formed BGZIP streams

A well-formed stream is the serialization of a list of blocks.  Each block
carries its compressed DEFLATE payload and the content the (assumed correct)
backend decompresses it to; the serializer emits the canonical BGZIP framing:
fixed 12-byte gzip header with a 6-byte extra field holding the single
BC-tagged block-size subfield, the payload, and the 8-byte footer whose last
four bytes encode the decompressed size. -/

/-- One BGZIP block of a well-formed stream. -/
structure bgzip_block where
  payload : List Nat
  content : List Nat
  deriving DecidableEq, Repr

/-- Little-endian encoding of `v` into `w` bytes. -/
def le_bytes : Nat → Nat → List Nat
  | 0, _ => []
  | w + 1, v => v % 256 :: le_bytes w (v / 256)

/-- Serialize one block: gzip magic `31 139 8 4`, six ignored header bytes,
`extra_length = 6`, the BC subfield (tag `66 67`, size 2, payload
`block_size - 1`), the compressed payload, and the footer (4 CRC bytes,
4 bytes little-endian decompressed size).  `block_size = payload.length + 26`
counts the whole block. -/
def serialize_block (b : bgzip_block) : List Nat :=
  [31, 139, 8, 4, 0, 0, 0, 0, 0, 0] ++ le_bytes 2 6 ++
  ([66, 67] ++ le_bytes 2 2 ++ le_bytes 2 (b.payload.length + 25)) ++
  b.payload ++ (le_bytes 4 0 ++ le_bytes 4 b.content.length)

/-- Serialize a whole stream. -/
def serialize_blocks (bs : List bgzip_block) : List Nat :=
  (bs.map serialize_block).flatten

/-- Well-formedness: the block-size field fits in 16 bits and the footer
decompressed size in 32 bits. -/
def blocks_wf (bs : List bgzip_block) : Prop :=
  ∀ b ∈ bs, b.payload.length + 25 < 65536 ∧ b.content.length < 2 ^ 32

/-- Decompressed bytes of the whole stream. -/
def all_content (bs : List bgzip_block) : List Nat :=
  (bs.map fun b => b.content).flatten

/-- Total decompressed length of the first `m` blocks. -/
def prefix_content (bs : List bgzip_block) (m : Nat) : Nat :=
  (((bs.take m).map fun b => b.content.length)).sum

/-- Compressed file offset of block `m` (serialized length of the first `m`
blocks). -/
def ser_offset (bs : List bgzip_block) (m : Nat) : Nat :=
  (((bs.take m).map fun b => (serialize_block b).length)).sum

/-- Cumulative offsets of a list of sizes: `[0, x0, x0+x1, ...]`. -/
def cum_offsets : List Nat → List Nat
  | [] => [0]
  | x :: xs => 0 :: (cum_offsets xs).map (x + ·)

/-- Left fold maximum, the shape `add_block_offsets` accumulates
`max_decompressed_size` in. -/
def max_list (l : List Nat) : Nat := l.foldl max 0

/-- Default block for `getD` lookups. -/
def dblock : bgzip_block := { payload := [], content := [] }

/-- Blocks `j ≤ i < m` of the stream. -/
def segment (bs : List bgzip_block) (j m : Nat) : List bgzip_block :=
  (bs.take m).drop j

/-- The host-side state of a group that has accumulated exactly the blocks of
`seg`, exposes `avail` decompressed bytes and has consumed `ρ` of them;
not yet decompressed. -/
def loaded_group (seg : List bgzip_block) (avail ρ : Nat) : decompression_blocks :=
  { h_compressed_blocks := (seg.map fun b => b.payload).flatten
    h_compressed_offsets := cum_offsets (seg.map fun b => b.payload.length)
    h_decompressed_offsets := cum_offsets (seg.map fun b => b.content.length)
    d_compressed_blocks := []
    d_decompressed_blocks := []
    d_compressed_offsets := []
    d_decompressed_offsets := []
    d_spans := []
    d_results_len := 0
    compressed_size_with_headers := 0
    max_decompressed_size := max_list (seg.map fun b => b.content.length)
    available_decompressed_size := avail
    read_pos := ρ
    is_decompressed := false }

/-! ## The reader invariant

The virtual range is abstracted by a context: either the whole stream lies
inside the range (`cEnd` at or past the end of the file, the unbounded
factory), or `virtual_end` points inside block `K`.  `M` is the first block
index the scan never goes past, `L` the number of decompressed bytes the
reader is allowed to expose. -/

structure range_ctx where
  bs : List bgzip_block
  backend : List Nat → List Nat
  cEnd : Nat
  lEnd : Nat
  M : Nat
  L : Nat

/-- Context well-formedness (see above). -/
def ctx_wf (c : range_ctx) : Prop :=
  blocks_wf c.bs ∧ (∀ b ∈ c.bs, c.backend b.payload = b.content) ∧
  ((serialize_blocks c.bs).length ≤ c.cEnd ∧ c.M = c.bs.length ∧
      c.L = prefix_content c.bs c.bs.length ∨
    ∃ K, K < c.bs.length ∧ c.cEnd = ser_offset c.bs K ∧
      c.lEnd < ((c.bs.getD K dblock).content).length ∧
      c.M = K + 1 ∧ c.L = prefix_content c.bs K + c.lEnd)

/-- Decompressed bytes exposed after the scan has passed `m` blocks: the
content prefix sum, clipped to the range limit. -/
def scanned (c : range_ctx) (m : Nat) : Nat :=
  min c.L (prefix_content c.bs m)

/-- The logical byte sequence the reader serves: the first `L` decompressed
bytes of the stream. -/
def exposed (c : range_ctx) : List Nat :=
  (all_content c.bs).take c.L

/-- The reader invariant.  `k` is the number of logical bytes already served.
`j` is the first block of the current group, `m` the scan position (first
block not yet parsed), `ρ` the group's consumed byte count, `dec` its
memoization flag. -/
def inv (c : range_ctx) (r : reader_state) (k : Nat) : Prop :=
  ∃ (j m ρ : Nat) (dec : Bool),
    j ≤ m ∧ m ≤ c.M ∧
    r.data_stream.data = serialize_blocks c.bs ∧
    r.data_stream.pos = ser_offset c.bs m ∧
    (r.data_stream.eofbit = true → m = c.bs.length) ∧
    r.compressed_pos = ser_offset c.bs m ∧
    r.compressed_end = c.cEnd ∧
    r.local_end = c.lEnd ∧
    r.curr_blocks =
      (if dec then
        (loaded_group (segment c.bs j m) (scanned c m - scanned c j) ρ).decompress c.backend
      else loaded_group (segment c.bs j m) (scanned c m - scanned c j) ρ) ∧
    ρ ≤ scanned c m - scanned c j ∧ scanned c j ≤ scanned c m ∧
    k = scanned c j + ρ ∧
    r.prev_blocks.remaining_size = 0 ∧
    r.prev_blocks.h_compressed_offsets.take 1 = [0] ∧
    r.prev_blocks.h_decompressed_offsets.take 1 = [0]

end BgzipVerify

namespace BgzipVerify

/-! ## Concrete data used by the closed witness theorems -/

/-- A two-block example stream. -/
def wb1 : bgzip_block := { payload := [10, 20], content := [1, 2, 3] }

/-- Second example block. -/
def wb2 : bgzip_block := { payload := [30], content := [4, 5] }

/-- Example block list. -/
def wbs : List bgzip_block := [wb1, wb2]

/-- A backend that correctly decompresses the example blocks. -/
def wbackend : List Nat → List Nat := fun l =>
  if l = [10, 20] then [1, 2, 3] else if l = [30] then [4, 5] else []

/-- The unbounded-range context over the example stream. -/
def wctx : range_ctx :=
  { bs := wbs, backend := wbackend, cEnd := 2 ^ 48 - 1, lEnd := 65535, M := 2, L := 5 }

/-- An example reader state: both blocks loaded, nothing consumed, at EOF. -/
def wreader : reader_state :=
  { data_stream := { data := serialize_blocks wbs, pos := 55, eofbit := true }
    prev_blocks := decompression_blocks.init
    curr_blocks := loaded_group wbs 5 0
    local_end := 65535
    compressed_pos := 55
    compressed_end := 2 ^ 48 - 1 }

/-- A block whose compressed payload (2 bytes) is much smaller than its
decompressed content (10 bytes): the constructor bounds check compares the
local offset against the wrong table. -/
def bC2 : bgzip_block := { payload := [9, 9], content := [0, 1, 2, 3, 4, 5, 6, 7, 8, 9] }

/-- The C9 invariant on one block group: the read cursor never passes the
available decompressed range. -/
def gp_inv (g : decompression_blocks) : Prop :=
  g.read_pos <= g.available_decompressed_size

/-- The C9 invariant on the reader: both block groups satisfy `gp_inv`. -/
def rp_inv (r : reader_state) : Prop :=
  gp_inv r.curr_blocks ∧ gp_inv r.prev_blocks

/-- The C10 invariant on a block group's host offset tables: equal lengths of
at least one, leading sentinel 0 and monotone nondecreasing entries. -/
def tbl_inv (g : decompression_blocks) : Prop :=
  g.h_compressed_offsets.length = g.h_decompressed_offsets.length ∧
  1 ≤ g.h_compressed_offsets.length ∧
  g.h_compressed_offsets.take 1 = [0] ∧
  g.h_decompressed_offsets.take 1 = [0] ∧
  g.h_compressed_offsets.Chain' (· ≤ ·) ∧
  g.h_decompressed_offsets.Chain' (· ≤ ·)

/-- A stream whose first GZIP member has a valid magic and whose first extra
subfield carries the BGZIP tag 66/67 but declares size 4 instead of 2. -/
def cexData : List Nat := [31, 139, 8, 4, 0, 0, 0, 0, 0, 0, 6, 0, 66, 67, 4, 0]

/-! ## Byte-level helper lemmas -/

theorem le_bytes_length (w v : Nat) : (le_bytes w v).length = w := by
  induction w generalizing v with
  | zero => rfl
  | succ w ih => simp [le_bytes, ih]

theorem read_int_le_bytes (w v : Nat) (h : v < 256 ^ w) :
    read_int (le_bytes w v) = v := by
  induction w generalizing v with
  | zero =>
    simp only [pow_zero, Nat.lt_one_iff] at h
    simp [le_bytes, read_int, h]
  | succ w ih =>
    have hv : v / 256 < 256 ^ w := by
      rw [Nat.div_lt_iff_lt_mul (by norm_num)]
      calc v < 256 ^ (w + 1) := h
        _ = 256 ^ w * 256 := by ring
    simp [le_bytes, read_int, ih (v / 256) hv]
    omega

theorem le_bytes_lt (w v : Nat) : ∀ b ∈ le_bytes w v, b < 256 := by
  induction w generalizing v with
  | zero => simp [le_bytes]
  | succ w ih =>
    intro b hb
    simp only [le_bytes, List.mem_cons] at hb
    rcases hb with h | h
    · omega
    · exact ih _ b h

theorem drop_append_add {α : Type} (l1 l2 : List α) (s : Nat) :
    (l1 ++ l2).drop (l1.length + s) = l2.drop s := by
  rw [← List.drop_drop, List.drop_left]

theorem take_add_split {α : Type} (l : List α) (a b : Nat) :
    l.take (a + b) = l.take a ++ (l.drop a).take b := by
  induction a generalizing l with
  | zero => simp
  | succ a ih =>
    cases l with
    | nil => simp
    | cons x xs => simp [Nat.succ_add, ih]

theorem extractBytes_zero_take (l : List Nat) (n : Nat) :
    extractBytes l 0 n = l.take n := by
  simp [extractBytes]

theorem extractBytes_append (x : List Nat) (k a b : Nat) :
    extractBytes x k a ++ extractBytes x (k + a) b = extractBytes x k (a + b) := by
  unfold extractBytes
  rw [take_add_split, List.drop_drop]

theorem extractBytes_shift (pre l : List Nat) (s n : Nat) :
    extractBytes (pre ++ l) (pre.length + s) n = extractBytes l s n := by
  unfold extractBytes
  rw [drop_append_add]

theorem extractBytes_length (l : List Nat) (k n : Nat) :
    (extractBytes l k n).length = min n (l.length - k) := by
  simp [extractBytes]

/-! ## Cumulative offset lemmas -/

theorem cum_offsets_length (xs : List Nat) :
    (cum_offsets xs).length = xs.length + 1 := by
  induction xs with
  | nil => rfl
  | cons x xs ih => simp [cum_offsets, ih]

theorem cum_offsets_ne_nil (xs : List Nat) : cum_offsets xs ≠ [] := by
  cases xs <;> simp [cum_offsets]

theorem cum_offsets_take_one (xs : List Nat) : (cum_offsets xs).take 1 = [0] := by
  cases xs <;> rfl

theorem getLastD_map_add (x : Nat) :
    ∀ (l : List Nat), l ≠ [] → (l.map (x + ·)).getLastD 0 = x + l.getLastD 0
  | [], h => absurd rfl h
  | [a], _ => by simp
  | a :: b :: t, _ => by
    simp only [List.map_cons, List.getLastD_cons]
    have h := getLastD_map_add x (b :: t) (by simp)
    simp only [List.map_cons, List.getLastD_cons] at h
    exact h

theorem cum_offsets_last (xs : List Nat) : (cum_offsets xs).getLastD 0 = xs.sum := by
  induction xs with
  | nil => rfl
  | cons x ys ih =>
    simp only [cum_offsets, List.sum_cons, List.getLastD_cons]
    rcases hys : cum_offsets ys with _ | ⟨z, zs⟩
    · exact absurd hys (cum_offsets_ne_nil ys)
    · have h1 : ((z :: zs).map (x + ·)).getLastD 0 = x + (z :: zs).getLastD 0 :=
        getLastD_map_add x (z :: zs) (by simp)
      simp only [List.map_cons, List.getLastD_cons] at h1 ⊢
      rw [h1]
      rw [hys] at ih
      simp only [List.getLastD_cons] at ih
      omega

theorem cum_offsets_append (xs : List Nat) (x : Nat) :
    cum_offsets (xs ++ [x]) = cum_offsets xs ++ [xs.sum + x] := by
  induction xs with
  | nil => simp [cum_offsets]
  | cons y ys ih =>
    simp only [List.cons_append, cum_offsets, List.append_eq, ih, List.map_append,
      List.map_cons, List.map_nil, List.sum_cons]
    simp [Nat.add_assoc]

theorem getD_map_add (x : Nat) :
    ∀ (l : List Nat) (i : Nat), i < l.length → (l.map (x + ·)).getD i 0 = x + l.getD i 0
  | [], i, h => by simp at h
  | a :: t, 0, _ => by simp
  | a :: t, i + 1, h => by
    simp only [List.map_cons, List.getD_cons_succ]
    exact getD_map_add x t i (by simpa using h)

theorem cum_offsets_getD (xs : List Nat) (i : Nat) (hi : i ≤ xs.length) :
    (cum_offsets xs).getD i 0 = (xs.take i).sum := by
  induction xs generalizing i with
  | nil =>
    have : i = 0 := by simpa using hi
    subst this
    rfl
  | cons x ys ih =>
    cases i with
    | zero => rfl
    | succ i =>
      simp only [cum_offsets, List.getD_cons_succ, List.take_succ_cons, List.sum_cons]
      have hi2 : i ≤ ys.length := by simpa using hi
      rw [getD_map_add x (cum_offsets ys) i (by rw [cum_offsets_length]; omega), ih i hi2]

theorem max_list_append (l : List Nat) (x : Nat) :
    max_list (l ++ [x]) = max x (max_list l) := by
  simp [max_list, List.foldl_append, Nat.max_comm]

/-! ## Flatten segmentation lemmas -/

theorem flatten_drop_sum (l : List (List Nat)) (t : Nat) :
    l.flatten.drop (((l.take t).map List.length).sum) = (l.drop t).flatten := by
  induction t generalizing l with
  | zero => simp
  | succ t ih =>
    cases l with
    | nil => simp
    | cons a l =>
      simp only [List.take_succ_cons, List.map_cons, List.sum_cons, List.flatten_cons,
        List.drop_succ_cons]
      rw [drop_append_add]
      exact ih l

theorem flatten_length_sum (l : List (List Nat)) :
    l.flatten.length = (l.map List.length).sum := by
  simp

/-! ## Stream lemmas -/

theorem pos_le_of_drop (data q : List Nat) (p : Nat)
    (hd : data.drop p = q) (hq : q ≠ []) : p ≤ data.length := by
  by_contra hc
  have h0 : data.drop p = [] := List.drop_eq_nil_of_le (by omega)
  exact hq (by rw [← hd, h0])

theorem drop_of_drop_eq (data : List Nat) (p k : Nat) (pre tail : List Nat)
    (hd : data.drop p = pre ++ tail) (hk : pre.length = k) :
    data.drop (p + k) = tail := by
  rw [← List.drop_drop, hd, ← hk, List.drop_left]

theorem sread_of_drop (data pre rest : List Nat) (p n : Nat)
    (hd : data.drop p = pre ++ rest) (hn : pre.length = n) (hp : p ≤ data.length) :
    sread n ⟨data, p, false⟩ = .ok (pre, ⟨data, p + n, false⟩) := by
  have hlen : data.length - p = pre.length + rest.length := by
    have h := congrArg List.length hd
    simp only [List.length_drop, List.length_append] at h
    exact h
  unfold sread
  simp only [Bool.false_eq_true, if_false]
  rw [if_pos (by omega), hd, ← hn, List.take_left]

theorem speek_mid (data : List Nat) (p : Nat) (hp : p < data.length) :
    speek ⟨data, p, false⟩ = .ok ⟨data, p, false⟩ := by
  unfold speek
  simp [hp]

theorem speek_end (data : List Nat) (p : Nat) (hp : data.length ≤ p) :
    speek ⟨data, p, false⟩ = .ok ⟨data, p, true⟩ := by
  unfold speek
  simp [Nat.not_lt.mpr hp]

/-! ## Parsing one serialized block -/

theorem serialize_block_shape (b : bgzip_block) :
    serialize_block b =
      [31, 139, 8, 4, 0, 0, 0, 0, 0, 0, 6, 0] ++
      ([66, 67, 2, 0] ++ (le_bytes 2 (b.payload.length + 25) ++
      (b.payload ++ ([0, 0, 0, 0] ++ le_bytes 4 b.content.length)))) := by
  simp [serialize_block, le_bytes]

theorem serialize_block_length (b : bgzip_block) :
    (serialize_block b).length = b.payload.length + 26 := by
  rw [serialize_block_shape]
  simp [le_bytes_length]
  omega

theorem scan_subfields_serialized (data : List Nat) (fuel p n25 : Nat)
    (tail : List Nat) (hw : n25 < 65536)
    (hdrop : data.drop p = [66, 67, 2, 0] ++ (le_bytes 2 n25 ++ tail)) :
    scan_subfields 6 (fuel + 1) 0 ⟨data, p, false⟩ =
      .ok ({ block_size := n25 + 1, extra_length := 6 }, ⟨data, p + 6, false⟩) := by
  have hp : p ≤ data.length := pos_le_of_drop data _ p hdrop (by simp)
  have h4 := sread_of_drop data [66, 67, 2, 0] (le_bytes 2 n25 ++ tail) p 4 hdrop rfl hp
  have hdrop4 : data.drop (p + 4) = le_bytes 2 n25 ++ tail :=
    drop_of_drop_eq data p 4 [66, 67, 2, 0] (le_bytes 2 n25 ++ tail) hdrop rfl
  have hp4 : p + 4 ≤ data.length := pos_le_of_drop data _ (p + 4) hdrop4 (by
    intro hcon
    have := congrArg List.length hcon
    simp [le_bytes_length] at this)
  have h2 := sread_of_drop data (le_bytes 2 n25) tail (p + 4) 2 hdrop4
    (le_bytes_length 2 _) hp4
  unfold scan_subfields
  rw [if_pos (by norm_num)]
  rw [if_neg (by norm_num)]
  rw [h4]
  simp only [List.getD_cons_zero, List.getD_cons_succ, List.drop_succ_cons,
    List.drop_zero]
  rw [if_pos (⟨trivial, trivial⟩ : True ∧ True)]
  rw [if_pos (by norm_num [read_int])]
  have hlt : n25 < 256 ^ 2 := lt_of_lt_of_le hw (by norm_num)
  rw [h2]
  simp only [seekCur]
  simp [read_int_le_bytes 2 n25 hlt]
  omega

theorem read_header_serialized (data rest : List Nat) (p : Nat) (b : bgzip_block)
    (hwfp : b.payload.length + 25 < 65536)
    (hd : data.drop p = serialize_block b ++ rest) :
    read_header ⟨data, p, false⟩ =
      .ok ({ block_size := b.payload.length + 26, extra_length := 6 },
           ⟨data, p + 18, false⟩) := by
  rw [serialize_block_shape, List.append_assoc] at hd
  have hp : p ≤ data.length := pos_le_of_drop data _ p hd (by simp)
  have h12 := sread_of_drop data [31, 139, 8, 4, 0, 0, 0, 0, 0, 0, 6, 0] _ p 12 hd rfl hp
  have hdrop12 : data.drop (p + 12) =
      [66, 67, 2, 0] ++ (le_bytes 2 (b.payload.length + 25) ++
        ((b.payload ++ ([0, 0, 0, 0] ++ le_bytes 4 b.content.length)) ++ rest)) := by
    have h := drop_of_drop_eq data p 12 _ _ hd rfl
    rw [h]
    simp [List.append_assoc]
  unfold read_header
  rw [h12]
  norm_num [read_int]
  have hs := scan_subfields_serialized data data.length (p + 12)
    (b.payload.length + 25) _ hwfp hdrop12
  have e1 : p + 18 = p + 12 + 6 := by omega
  have e2 : b.payload.length + 26 = b.payload.length + 25 + 1 := by omega
  rw [e1, e2]
  exact hs

theorem read_block_serialized (data rest : List Nat) (p : Nat) (b : bgzip_block)
    (g : decompression_blocks)
    (hd : data.drop (p + 18) =
      b.payload ++ (([0, 0, 0, 0] ++ le_bytes 4 b.content.length) ++ rest)) :
    g.read_block { block_size := b.payload.length + 26, extra_length := 6 }
        ⟨data, p + 18, false⟩ =
      .ok ({ g with h_compressed_blocks := g.h_compressed_blocks ++ b.payload },
           ⟨data, p + 18 + b.payload.length, false⟩) := by
  have hp : p + 18 ≤ data.length := pos_le_of_drop data _ (p + 18) hd (by
    intro hcon
    have := congrArg List.length hcon
    simp [le_bytes_length] at this)
  have hds : ({ block_size := b.payload.length + 26, extra_length := 6 } :
      bgzip_header).data_size = (b.payload.length : Int) := by
    simp [bgzip_header.data_size]
    ring
  unfold decompression_blocks.read_block
  rw [hds]
  rw [if_neg (by omega)]
  have hrd := sread_of_drop data b.payload
    (([0, 0, 0, 0] ++ le_bytes 4 b.content.length) ++ rest) (p + 18) b.payload.length
    hd rfl hp
  simp only [Int.toNat_natCast]
  rw [hrd]

theorem read_footer_serialized (data rest : List Nat) (p : Nat) (b : bgzip_block)
    (hwfc : b.content.length < 2 ^ 32)
    (hd : data.drop p = ([0, 0, 0, 0] ++ le_bytes 4 b.content.length) ++ rest) :
    read_footer ⟨data, p, false⟩ =
      .ok ({ decompressed_size := b.content.length }, ⟨data, p + 8, false⟩) := by
  have hp : p ≤ data.length := pos_le_of_drop data _ p hd (by simp)
  have h8 := sread_of_drop data ([0, 0, 0, 0] ++ le_bytes 4 b.content.length) rest p 8
    hd (by simp [le_bytes_length]) hp
  unfold read_footer
  rw [h8]
  norm_num
  rw [List.take_of_length_le (by simp [le_bytes_length])]
  rw [read_int_le_bytes 4 _ (lt_of_lt_of_le hwfc (by norm_num))]

/-! ## Block-list bookkeeping -/

theorem getD_eq_getElem {α : Type} (l : List α) (i : Nat) (d : α) (h : i < l.length) :
    l.getD i d = l[i] := by
  simp [List.getD_eq_getElem?_getD, List.getElem?_eq_getElem h]

theorem take_succ_getD (bs : List bgzip_block) (t : Nat) (ht : t < bs.length) :
    bs.take (t + 1) = bs.take t ++ [bs.getD t dblock] := by
  rw [List.take_succ, getD_eq_getElem bs t dblock ht, List.getElem?_eq_getElem ht]
  rfl

theorem drop_append_le {α : Type} :
    ∀ (A B : List α) (j : Nat), j ≤ A.length → (A ++ B).drop j = A.drop j ++ B
  | _, _, 0, _ => by simp
  | [], _, j + 1, h => by simp at h
  | a :: A, B, j + 1, h => by
    simp only [List.cons_append, List.drop_succ_cons]
    exact drop_append_le A B j (by simpa using h)

theorem segment_succ (bs : List bgzip_block) (j t : Nat) (hj : j ≤ t)
    (ht : t < bs.length) :
    segment bs j (t + 1) = segment bs j t ++ [bs.getD t dblock] := by
  unfold segment
  rw [take_succ_getD bs t ht, drop_append_le _ _ j (by simp; omega)]

theorem segment_self (bs : List bgzip_block) (j : Nat) : segment bs j j = [] := by
  unfold segment
  apply List.drop_eq_nil_of_le
  simp

theorem segment_eq_drop_take (bs : List bgzip_block) (j m : Nat) :
    segment bs j m = (bs.drop j).take (m - j) := by
  unfold segment
  exact List.drop_take m j bs

theorem prefix_content_succ (bs : List bgzip_block) (t : Nat) (ht : t < bs.length) :
    prefix_content bs (t + 1) = prefix_content bs t + (bs.getD t dblock).content.length := by
  unfold prefix_content
  rw [take_succ_getD bs t ht]
  simp

theorem ser_offset_succ (bs : List bgzip_block) (t : Nat) (ht : t < bs.length) :
    ser_offset bs (t + 1) =
      ser_offset bs t + (serialize_block (bs.getD t dblock)).length := by
  unfold ser_offset
  rw [take_succ_getD bs t ht]
  simp

theorem sum_take_mono (xs : List Nat) (t u : Nat) (h : t ≤ u) :
    (xs.take t).sum ≤ (xs.take u).sum := by
  have : xs.take u = xs.take t ++ (xs.drop t).take (u - t) := by
    rw [← take_add_split]
    congr 1
    omega
  rw [this]
  simp

theorem prefix_content_mono (bs : List bgzip_block) (t u : Nat) (h : t ≤ u) :
    prefix_content bs t ≤ prefix_content bs u := by
  unfold prefix_content
  have h1 : (bs.map fun b => b.content.length).take t = (bs.take t).map fun b => b.content.length := by
    rw [List.map_take]
  have h2 : (bs.map fun b => b.content.length).take u = (bs.take u).map fun b => b.content.length := by
    rw [List.map_take]
  rw [← h1, ← h2]
  exact sum_take_mono _ t u h

theorem ser_offset_mono (bs : List bgzip_block) (t u : Nat) (h : t ≤ u) :
    ser_offset bs t ≤ ser_offset bs u := by
  unfold ser_offset
  rw [List.map_take, List.map_take]
  exact sum_take_mono _ t u h

theorem serialize_blocks_length (bs : List bgzip_block) :
    (serialize_blocks bs).length = ser_offset bs bs.length := by
  unfold serialize_blocks ser_offset
  rw [flatten_length_sum, List.take_of_length_le (le_refl bs.length), List.map_map]
  rfl

theorem ser_offset_le_length (bs : List bgzip_block) (t : Nat) :
    ser_offset bs t ≤ (serialize_blocks bs).length := by
  rw [serialize_blocks_length]
  rcases Nat.le_total t bs.length with h | h
  · exact ser_offset_mono bs t bs.length h
  · unfold ser_offset
    rw [List.take_of_length_le h, List.take_of_length_le (le_refl _)]

theorem ser_offset_lt (bs : List bgzip_block) (t u : Nat) (ht : t < u)
    (hlen : t < bs.length) :
    ser_offset bs t < ser_offset bs u := by
  have h1 : ser_offset bs t + 26 ≤ ser_offset bs (t + 1) := by
    rw [ser_offset_succ bs t hlen, serialize_block_length]
    omega
  have h2 : ser_offset bs (t + 1) ≤ ser_offset bs u := ser_offset_mono bs (t + 1) u ht
  omega

theorem ser_offset_take_of_ge (bs : List bgzip_block) (t : Nat) (h : bs.length ≤ t) :
    ser_offset bs t = ser_offset bs bs.length := by
  unfold ser_offset
  rw [List.take_of_length_le h, List.take_of_length_le (le_refl _)]

theorem serialize_blocks_drop (bs : List bgzip_block) (t : Nat) :
    (serialize_blocks bs).drop (ser_offset bs t) = serialize_blocks (bs.drop t) := by
  unfold serialize_blocks ser_offset
  have h := flatten_drop_sum (bs.map serialize_block) t
  rw [← List.map_take, List.map_map, ← List.map_drop] at h
  exact h

theorem blocks_le_serialized (bs : List bgzip_block) :
    bs.length ≤ (serialize_blocks bs).length := by
  induction bs with
  | nil => simp [serialize_blocks]
  | cons b bs ih =>
    have : serialize_blocks (b :: bs) = serialize_block b ++ serialize_blocks bs := by
      simp [serialize_blocks]
    rw [this]
    simp only [List.length_cons, List.length_append, serialize_block_length]
    omega

theorem all_content_length (bs : List bgzip_block) :
    (all_content bs).length = prefix_content bs bs.length := by
  unfold all_content prefix_content
  rw [flatten_length_sum, List.take_of_length_le (le_refl _), List.map_map]
  rfl

theorem flatten_take_sum (l : List (List Nat)) (t : Nat) :
    l.flatten.take (((l.take t).map List.length).sum) = (l.take t).flatten := by
  induction t generalizing l with
  | zero => simp
  | succ t ih =>
    cases l with
    | nil => simp
    | cons a l =>
      simp only [List.take_succ_cons, List.map_cons, List.sum_cons, List.flatten_cons]
      rw [take_add_split, List.take_left, List.drop_left]
      rw [ih l]

theorem prefix_content_diff (bs : List bgzip_block) (j m : Nat) (hj : j ≤ m) :
    prefix_content bs m - prefix_content bs j =
      ((segment bs j m).map fun b => b.content.length).sum := by
  induction m with
  | zero =>
    have : j = 0 := by omega
    subst this
    simp [segment, prefix_content]
  | succ m ih =>
    rcases Nat.lt_or_ge m bs.length with hm | _hm
    · rcases Nat.lt_or_ge j (m + 1) with hj2 | hj2
      · have hjm : j ≤ m := by omega
        rw [prefix_content_succ bs m hm, segment_succ bs j m hjm hm]
        simp only [List.map_append, List.sum_append, List.map_cons, List.map_nil,
          List.sum_cons, List.sum_nil]
        have hple : prefix_content bs j ≤ prefix_content bs m :=
          prefix_content_mono bs j m hjm
        rw [← ih hjm]
        omega
      · have : j = m + 1 := by omega
        subst this
        simp [segment_self]
    · have h1 : prefix_content bs (m + 1) = prefix_content bs m := by
        unfold prefix_content
        rw [List.take_of_length_le (by omega : bs.length ≤ m + 1),
          List.take_of_length_le (by omega : bs.length ≤ m)]
      have h2 : segment bs j (m + 1) = segment bs j m := by
        unfold segment
        rw [List.take_of_length_le (by omega), List.take_of_length_le (by omega)]
      rcases Nat.lt_or_ge j (m + 1) with hj2 | hj2
      · rw [h1, h2, ih (by omega)]
      · have : j = m + 1 := by omega
        subst this
        simp [segment_self]

theorem segment_content_extract (bs : List bgzip_block) (j m : Nat) (hj : j ≤ m) :
    ((segment bs j m).map fun b => b.content).flatten =
      extractBytes (all_content bs) (prefix_content bs j)
        (prefix_content bs m - prefix_content bs j) := by
  unfold extractBytes
  have hdrop : (all_content bs).drop (prefix_content bs j) =
      ((bs.drop j).map fun b => b.content).flatten := by
    unfold all_content prefix_content
    have h := flatten_drop_sum (bs.map fun b => b.content) j
    rw [← List.map_take, List.map_map, ← List.map_drop] at h
    exact h
  rw [hdrop, prefix_content_diff bs j m hj]
  have h2 : ((segment bs j m).map fun b => b.content.length).sum =
      ((((bs.drop j).map fun b => b.content).take (m - j)).map List.length).sum := by
    rw [← List.map_take, ← segment_eq_drop_take, List.map_map]
    rfl
  rw [h2, flatten_take_sum, ← List.map_take, ← segment_eq_drop_take]

/-! ## Loaded-group lemmas -/

theorem loaded_group_num_blocks (seg : List bgzip_block) (a p : Nat) :
    (loaded_group seg a p).num_blocks = seg.length := by
  simp [loaded_group, decompression_blocks.num_blocks, cum_offsets_length]

theorem loaded_group_compressed_size (seg : List bgzip_block) (a p : Nat) :
    (loaded_group seg a p).compressed_size = ((seg.map fun b => b.payload.length)).sum :=
  cum_offsets_last _

theorem loaded_group_decompressed_size (seg : List bgzip_block) (a p : Nat) :
    (loaded_group seg a p).decompressed_size = ((seg.map fun b => b.content.length)).sum :=
  cum_offsets_last _

theorem loaded_group_remaining (seg : List bgzip_block) (a p : Nat) :
    (loaded_group seg a p).remaining_size = a - p := rfl

theorem loaded_group_flag (seg : List bgzip_block) (a p : Nat) :
    (loaded_group seg a p).is_decompressed = false := rfl

theorem decompressed_size_sum_prefix (bs : List bgzip_block) (j m : Nat) (hj : j ≤ m) :
    ((segment bs j m).map fun b => b.content.length).sum =
      prefix_content bs m - prefix_content bs j :=
  (prefix_content_diff bs j m hj).symm

/-- The group transformation performed by one loop iteration of
`read_next_compressed_chunk` on a group holding `seg`: append the payload
(`read_block`), push the offsets (`add_block_offsets`), set the new available
size. -/
theorem loaded_group_step (seg : List bgzip_block) (b : bgzip_block) (a p v : Nat) :
    { ({ loaded_group seg a p with
          h_compressed_blocks := (loaded_group seg a p).h_compressed_blocks ++ b.payload
        } : decompression_blocks).add_block_offsets
          { block_size := b.payload.length + 26, extra_length := 6 }
          { decompressed_size := b.content.length } with
      available_decompressed_size := v } = loaded_group (seg ++ [b]) v p := by
  simp only [loaded_group, decompression_blocks.add_block_offsets,
    decompression_blocks.compressed_size, decompression_blocks.decompressed_size,
    bgzip_header.data_size]
  rw [cum_offsets_last, cum_offsets_last]
  simp only [List.map_append, List.map_cons, List.map_nil, List.flatten_append,
    List.flatten_cons, List.flatten_nil, List.append_nil]
  rw [cum_offsets_append, cum_offsets_append, max_list_append]
  congr 2
  congr 1
  omega

theorem fitSpan_self (l : List Nat) : fitSpan l.length l = l := by
  simp [fitSpan]

theorem take_succ_sum (xs : List Nat) (i : Nat) (hi : i < xs.length) :
    (xs.take (i + 1)).sum = (xs.take i).sum + xs.getD i 0 := by
  rw [List.take_succ, List.getElem?_eq_getElem hi, getD_eq_getElem xs i 0 hi,
    List.sum_append]
  simp

theorem blockSlice_loaded (seg : List bgzip_block) (a p i : Nat) (hi : i < seg.length) :
    (loaded_group seg a p).blockSlice i = (seg.getD i dblock).payload := by
  unfold decompression_blocks.blockSlice loaded_group extractBytes
  simp only []
  rw [cum_offsets_getD _ i (by simp; omega), cum_offsets_getD _ (i + 1) (by simp; omega)]
  have hdrop : ((seg.map fun b => b.payload).flatten).drop
      ((((seg.map fun b => b.payload.length)).take i).sum) =
      ((seg.map fun b => b.payload).drop i).flatten := by
    have h := flatten_drop_sum (seg.map fun b => b.payload) i
    rw [← List.map_take, List.map_map] at h
    simp only [Function.comp_def] at h
    rw [List.map_take] at h
    exact h
  rw [hdrop]
  rw [take_succ_sum _ i (by simpa using hi)]
  have hcons : (seg.map fun b => b.payload).drop i =
      (seg.getD i dblock).payload :: (seg.map fun b => b.payload).drop (i + 1) := by
    rw [List.drop_eq_getElem_cons (by simpa using hi)]
    congr 1
    rw [List.getElem_map, ← getD_eq_getElem seg i dblock hi]
  rw [hcons]
  have hval : (seg.map fun b => b.payload.length).getD i 0 =
      (seg.getD i dblock).payload.length := by
    rw [getD_eq_getElem _ i 0 (by simpa using hi), List.getElem_map,
      ← getD_eq_getElem seg i dblock hi]
  rw [hval, Nat.add_sub_cancel_left, List.flatten_cons]
  exact List.take_left' rfl

theorem blockSpanSize_loaded (seg : List bgzip_block) (a p i : Nat) (hi : i < seg.length) :
    (loaded_group seg a p).blockSpanSize i = (seg.getD i dblock).content.length := by
  unfold decompression_blocks.blockSpanSize loaded_group
  simp only []
  rw [cum_offsets_getD _ i (by simp; omega), cum_offsets_getD _ (i + 1) (by simp; omega)]
  rw [take_succ_sum _ i (by simpa using hi)]
  have hval : (seg.map fun b => b.content.length).getD i 0 =
      (seg.getD i dblock).content.length := by
    rw [getD_eq_getElem _ i 0 (by simpa using hi), List.getElem_map,
      ← getD_eq_getElem seg i dblock hi]
  rw [hval]
  omega

theorem decompress_loaded_blocks (backend : List Nat → List Nat)
    (seg : List bgzip_block) (a p : Nat)
    (hbk : ∀ b ∈ seg, backend b.payload = b.content) :
    ((loaded_group seg a p).decompress backend).d_decompressed_blocks =
      (seg.map fun b => b.content).flatten := by
  unfold decompression_blocks.decompress
  rw [if_neg (by rw [loaded_group_flag]; simp)]
  simp only []
  rw [loaded_group_num_blocks]
  congr 1
  apply List.ext_getElem (by simp)
  intro i h1 h2
  simp only [List.getElem_map, List.getElem_range]
  have hi : i < seg.length := by simpa using h2
  rw [blockSlice_loaded seg a p i hi, blockSpanSize_loaded seg a p i hi]
  rw [hbk _ (by rw [getD_eq_getElem seg i dblock hi]; exact List.getElem_mem hi)]
  rw [fitSpan_self]
  rw [getD_eq_getElem seg i dblock hi]

/-! ## Context lemmas -/

theorem serialize_blocks_cons (b : bgzip_block) (bs : List bgzip_block) :
    serialize_blocks (b :: bs) = serialize_block b ++ serialize_blocks bs := by
  simp [serialize_blocks]

theorem scanned_le (c : range_ctx) (m : Nat) : scanned c m ≤ c.L :=
  Nat.min_le_left _ _

theorem scanned_mono (c : range_ctx) (t u : Nat) (h : t ≤ u) :
    scanned c t ≤ scanned c u :=
  min_le_min (le_refl c.L) (prefix_content_mono c.bs t u h)

theorem ctx_M_le (c : range_ctx) (hc : ctx_wf c) : c.M ≤ c.bs.length := by
  rcases hc.2.2 with ⟨_, hM, _⟩ | ⟨K, hK, _, _, hM, _⟩ <;> omega

theorem add_block_offsets_available (g : decompression_blocks) (h : bgzip_header)
    (f : bgzip_footer) :
    (g.add_block_offsets h f).available_decompressed_size =
      g.available_decompressed_size := rfl

theorem loaded_group_available (seg : List bgzip_block) (a p : Nat) :
    (loaded_group seg a p).available_decompressed_size = a := rfl

theorem ser_offset_zero (bs : List bgzip_block) : ser_offset bs 0 = 0 := rfl

theorem prefix_content_zero (bs : List bgzip_block) : prefix_content bs 0 = 0 := rfl

/-! ## The accumulation loop -/

/-- Behaviour of the accumulation loop of `read_next_compressed_chunk` on a
well-formed stream: starting from scan position `t` with the current group
holding blocks `j..t`, the loop parses whole blocks until it has staged
`req` decompressed bytes or reached the end of the range or stream, leaving
the reader at scan position `m` with the group holding blocks `j..m` and the
range-clipped available size. -/
theorem read_chunk_loop_spec (c : range_ctx) (hc : ctx_wf c) (req : Nat) :
    ∀ (fuel j t ρ : Nat) (r : reader_state), j ≤ t → t ≤ c.M →
      c.bs.length - t < fuel →
      r.data_stream.data = serialize_blocks c.bs →
      r.data_stream.pos = ser_offset c.bs t →
      (r.data_stream.eofbit = true → t = c.bs.length) →
      r.compressed_pos = ser_offset c.bs t →
      r.compressed_end = c.cEnd →
      r.local_end = c.lEnd →
      r.curr_blocks = loaded_group (segment c.bs j t) (scanned c t - scanned c j) ρ →
      ∃ m r', t ≤ m ∧ m ≤ c.M ∧
        read_chunk_loop req fuel r = .ok r' ∧
        r'.data_stream.data = serialize_blocks c.bs ∧
        r'.data_stream.pos = ser_offset c.bs m ∧
        (r'.data_stream.eofbit = true → m = c.bs.length) ∧
        r'.compressed_pos = ser_offset c.bs m ∧
        r'.compressed_end = c.cEnd ∧
        r'.local_end = c.lEnd ∧
        r'.prev_blocks = r.prev_blocks ∧
        r'.curr_blocks = loaded_group (segment c.bs j m) (scanned c m - scanned c j) ρ ∧
        (req ≤ prefix_content c.bs m - prefix_content c.bs j ∨ m = c.M) := by
  intro fuel
  induction fuel with
  | zero =>
    intro j t ρ r _ _ hfuel
    omega
  | succ f ih =>
    intro j t ρ r hjt htM hfuel hdata hpos heof hcp hce hle hcurr
    have hMlen : c.M ≤ c.bs.length := ctx_M_le c hc
    unfold read_chunk_loop
    by_cases hreq : r.curr_blocks.decompressed_size < req
    case neg =>
      rw [if_neg hreq]
      refine ⟨t, r, le_refl t, htM, rfl, hdata, hpos, heof, hcp, hce, hle, rfl, hcurr, ?_⟩
      left
      rw [hcurr, loaded_group_decompressed_size,
        decompressed_size_sum_prefix c.bs j t hjt] at hreq
      omega
    case pos =>
      rw [if_pos hreq]
      by_cases heofb : r.data_stream.eofbit
      · rw [if_pos heofb]
        have ht : t = c.bs.length := heof heofb
        have hmM : t = c.M := by
          rcases hc.2.2 with ⟨_, hM, _⟩ | ⟨K, hK, _, _, hM, _⟩ <;> omega
        exact ⟨t, r, le_refl t, htM, rfl, hdata, hpos, heof, hcp, hce, hle, rfl, hcurr,
          Or.inr hmM⟩
      · rw [if_neg heofb]
        have heofb2 : r.data_stream.eofbit = false := by
          simp at heofb
          exact heofb
        have hsr : r.data_stream = ⟨serialize_blocks c.bs, ser_offset c.bs t, false⟩ := by
          cases hstream : r.data_stream with
          | mk d q e =>
            rw [hstream] at hdata hpos heofb2
            simp only [] at hdata hpos heofb2
            rw [hdata, hpos, heofb2]
        by_cases htlen : t < c.bs.length
        case neg =>
          have ht : t = c.bs.length := by omega
          have hpk : speek r.data_stream =
              .ok ⟨serialize_blocks c.bs, ser_offset c.bs t, true⟩ := by
            rw [hsr]
            apply speek_end
            rw [ht, ← serialize_blocks_length]
          simp only [hpk]
          have hmM : t = c.M := by
            rcases hc.2.2 with ⟨_, hM, _⟩ | ⟨K, hK, _, _, hM, _⟩ <;> omega
          rw [if_pos (show True ∨ r.compressed_pos > r.compressed_end from
            Or.inl trivial)]
          refine ⟨t, _, le_refl t, htM, rfl, rfl, rfl, ?_, hcp, hce, hle, rfl, hcurr,
            Or.inr hmM⟩
          intro
          exact ht
        case pos =>
          have hpk : speek r.data_stream = .ok r.data_stream := by
            rw [hsr]
            apply speek_mid
            rw [serialize_blocks_length]
            exact ser_offset_lt c.bs t c.bs.length htlen htlen
          simp only [hpk]
          -- whether the scan cursor has passed the end of the range
          by_cases hpast : r.compressed_pos > r.compressed_end
          case pos =>
            rw [if_pos (Or.inr hpast)]
            have hmM : t = c.M := by
              rcases hc.2.2 with ⟨hA, hM, _⟩ | ⟨K, hK, hcE, _, hM, _⟩
              · exfalso
                rw [hcp, hce] at hpast
                have h1 : ser_offset c.bs t ≤ (serialize_blocks c.bs).length :=
                  ser_offset_le_length c.bs t
                omega
              · rw [hcp, hce, hcE] at hpast
                by_contra hne
                have h2 : t ≤ K := by omega
                have := ser_offset_mono c.bs t K h2
                omega
            refine ⟨t, _, le_refl t, htM, rfl, hdata, hpos, heof, hcp, hce, hle, rfl,
              hcurr, Or.inr hmM⟩
          case neg =>
            rw [if_neg (by
              intro hor
              rcases hor with h1 | h2
              · rw [heofb2] at h1
                exact Bool.false_ne_true h1
              · exact hpast h2)]
            -- parse block t
            have htK : ∀ K, K < c.bs.length → c.cEnd = ser_offset c.bs K →
                c.M = K + 1 → t ≤ K := by
              intro K hK hcE hM
              by_contra hgt
              have h2 : K < t := by omega
              have := ser_offset_lt c.bs K t h2 hK
              rw [hcp, hce, hcE] at hpast
              omega
            have hbt : c.bs.getD t dblock ∈ c.bs := by
              rw [getD_eq_getElem c.bs t dblock htlen]
              exact List.getElem_mem htlen
            have hwfb := hc.1 _ hbt
            have hdropt : (serialize_blocks c.bs).drop (ser_offset c.bs t) =
                serialize_block (c.bs.getD t dblock) ++ serialize_blocks (c.bs.drop (t + 1)) := by
              rw [serialize_blocks_drop]
              rw [List.drop_eq_getElem_cons htlen, serialize_blocks_cons,
                getD_eq_getElem c.bs t dblock htlen]
            have hhdr := read_header_serialized (serialize_blocks c.bs)
              (serialize_blocks (c.bs.drop (t + 1))) (ser_offset c.bs t)
              (c.bs.getD t dblock) hwfb.1 hdropt
            simp only [hsr, hhdr]
            -- the stream after the header
            have hdrop18 : (serialize_blocks c.bs).drop (ser_offset c.bs t + 18) =
                (c.bs.getD t dblock).payload ++
                  (([0, 0, 0, 0] ++ le_bytes 4 (c.bs.getD t dblock).content.length) ++
                    serialize_blocks (c.bs.drop (t + 1))) := by
              have hshape := serialize_block_shape (c.bs.getD t dblock)
              rw [hshape] at hdropt
              have h18 := drop_of_drop_eq (serialize_blocks c.bs) (ser_offset c.bs t) 18
                ([31, 139, 8, 4, 0, 0, 0, 0, 0, 0, 6, 0] ++ ([66, 67, 2, 0] ++
                  le_bytes 2 ((c.bs.getD t dblock).payload.length + 25)))
                ((c.bs.getD t dblock).payload ++
                  (([0, 0, 0, 0] ++ le_bytes 4 (c.bs.getD t dblock).content.length) ++
                    serialize_blocks (c.bs.drop (t + 1))))
                (by rw [hdropt]; simp [List.append_assoc])
                (by simp [le_bytes_length])
              exact h18
            simp only [hcurr]
            have hrb := read_block_serialized (serialize_blocks c.bs)
              (serialize_blocks (c.bs.drop (t + 1))) (ser_offset c.bs t)
              (c.bs.getD t dblock)
              (loaded_group (segment c.bs j t) (scanned c t - scanned c j) ρ) hdrop18
            simp only [hrb]
            have hdropf : (serialize_blocks c.bs).drop
                (ser_offset c.bs t + 18 + (c.bs.getD t dblock).payload.length) =
                ([0, 0, 0, 0] ++ le_bytes 4 (c.bs.getD t dblock).content.length) ++
                  serialize_blocks (c.bs.drop (t + 1)) := by
              have := drop_of_drop_eq (serialize_blocks c.bs) (ser_offset c.bs t + 18)
                (c.bs.getD t dblock).payload.length (c.bs.getD t dblock).payload
                (([0, 0, 0, 0] ++ le_bytes 4 (c.bs.getD t dblock).content.length) ++
                  serialize_blocks (c.bs.drop (t + 1))) hdrop18 rfl
              exact this
            have hft := read_footer_serialized (serialize_blocks c.bs)
              (serialize_blocks (c.bs.drop (t + 1)))
              (ser_offset c.bs t + 18 + (c.bs.getD t dblock).payload.length)
              (c.bs.getD t dblock) hwfb.2 hdropf
            simp only [hft]
            -- the stream after the whole block sits at offset t+1
            have hpos1 : ser_offset c.bs t + 18 + (c.bs.getD t dblock).payload.length + 8 =
                ser_offset c.bs (t + 1) := by
              rw [ser_offset_succ c.bs t htlen, serialize_block_length]
              omega
            have hcp1 : ser_offset c.bs t + ((c.bs.getD t dblock).payload.length + 26) =
                ser_offset c.bs (t + 1) := by
              rw [ser_offset_succ c.bs t htlen, serialize_block_length]
            by_cases hclip : r.compressed_pos = r.compressed_end
            case pos =>
              -- last block of the range: only the local-end remainder is exposed
              rw [if_pos hclip]
              rcases hc.2.2 with ⟨hA, hM, hL⟩ | ⟨K, hK, hcE, hlE, hM, hL⟩
              · exfalso
                rw [hcp, hce] at hclip
                have h1 : ser_offset c.bs t < (serialize_blocks c.bs).length := by
                  rw [serialize_blocks_length]
                  exact ser_offset_lt c.bs t c.bs.length htlen htlen
                omega
              · have htK2 : t = K := by
                  have h1 : t ≤ K := htK K hK hcE hM
                  rcases Nat.lt_or_ge t K with h2 | h2
                  · exfalso
                    rw [hcp, hce, hcE] at hclip
                    have := ser_offset_lt c.bs t K h2 (by omega)
                    omega
                  · omega
                subst htK2
                have hsc1 : scanned c t = prefix_content c.bs t := by
                  unfold scanned
                  rw [hL]
                  exact min_eq_right (by omega)
                have hscj : scanned c j ≤ prefix_content c.bs t := by
                  have h1 := scanned_mono c j t hjt
                  omega
                have hsc2 : scanned c (t + 1) = prefix_content c.bs t + c.lEnd := by
                  unfold scanned
                  rw [hL, prefix_content_succ c.bs t htlen]
                  exact min_eq_left (by omega)
                have hcurr2 :
                    ({ ({ loaded_group (segment c.bs j t) (scanned c t - scanned c j) ρ with
                        h_compressed_blocks :=
                          (loaded_group (segment c.bs j t) (scanned c t - scanned c j)
                            ρ).h_compressed_blocks ++ (c.bs.getD t dblock).payload
                      } : decompression_blocks).add_block_offsets
                        { block_size := (c.bs.getD t dblock).payload.length + 26,
                          extra_length := 6 }
                        { decompressed_size := (c.bs.getD t dblock).content.length } with
                      available_decompressed_size :=
                        (({ loaded_group (segment c.bs j t) (scanned c t - scanned c j) ρ with
                          h_compressed_blocks :=
                            (loaded_group (segment c.bs j t) (scanned c t - scanned c j)
                              ρ).h_compressed_blocks ++ (c.bs.getD t dblock).payload
                        } : decompression_blocks).add_block_offsets
                          { block_size := (c.bs.getD t dblock).payload.length + 26,
                            extra_length := 6 }
                          { decompressed_size :=
                            (c.bs.getD t dblock).content.length
                          }).available_decompressed_size + r.local_end } :
                      decompression_blocks) =
                    loaded_group (segment c.bs j (t + 1))
                      (scanned c (t + 1) - scanned c j) ρ := by
                  have hv : (({ loaded_group (segment c.bs j t)
                        (scanned c t - scanned c j) ρ with
                      h_compressed_blocks :=
                        (loaded_group (segment c.bs j t) (scanned c t - scanned c j)
                          ρ).h_compressed_blocks ++ (c.bs.getD t dblock).payload
                    } : decompression_blocks).add_block_offsets
                      { block_size := (c.bs.getD t dblock).payload.length + 26,
                        extra_length := 6 }
                      { decompressed_size :=
                        (c.bs.getD t dblock).content.length
                      }).available_decompressed_size + r.local_end =
                      scanned c (t + 1) - scanned c j := by
                    show (scanned c t - scanned c j) + r.local_end = _
                    rw [hle]
                    omega
                  rw [hv]
                  have hstep := loaded_group_step (segment c.bs j t) (c.bs.getD t dblock)
                    (scanned c t - scanned c j) ρ (scanned c (t + 1) - scanned c j)
                  rw [← segment_succ c.bs j t hjt htlen] at hstep
                  exact hstep
                rw [hcurr2]
                have hmM : t + 1 = c.M := by omega
                refine ⟨t + 1, _, Nat.le_succ t, by omega, rfl, rfl, ?_, ?_, ?_, hce, hle,
                  rfl, rfl, Or.inr hmM⟩
                · exact hpos1
                · intro h2
                  exact absurd h2 (by simp)
                · show r.compressed_pos + ((c.bs.getD t dblock).payload.length + 26) =
                    ser_offset c.bs (t + 1)
                  rw [hcp]
                  exact hcp1
            case neg =>
              -- not the last block of the range: the full footer size is exposed
              have hsc2 : scanned c (t + 1) =
                  scanned c t + (c.bs.getD t dblock).content.length := by
                rcases hc.2.2 with ⟨hA, hM, hL⟩ | ⟨K, hK, hcE, hlE, hM, hL⟩
                · unfold scanned
                  rw [hL]
                  have hmono1 : prefix_content c.bs t ≤ prefix_content c.bs c.bs.length :=
                    prefix_content_mono c.bs t c.bs.length (by omega)
                  have hmono2 : prefix_content c.bs (t + 1) ≤
                      prefix_content c.bs c.bs.length :=
                    prefix_content_mono c.bs (t + 1) c.bs.length (by omega)
                  rw [prefix_content_succ c.bs t htlen] at hmono2 ⊢
                  rw [min_eq_right hmono2, min_eq_right hmono1]
                · have ht1K : t + 1 ≤ K := by
                    have h1 : t ≤ K := htK K hK hcE hM
                    rcases Nat.lt_or_ge t K with h2 | h2
                    · omega
                    · exfalso
                      have h3 : t = K := by omega
                      apply hclip
                      rw [hcp, hce, hcE, h3]
                  unfold scanned
                  rw [hL]
                  have hp1 : prefix_content c.bs (t + 1) ≤ prefix_content c.bs K :=
                    prefix_content_mono c.bs (t + 1) K ht1K
                  have hp0 : prefix_content c.bs t ≤ prefix_content c.bs K :=
                    prefix_content_mono c.bs t K (by omega)
                  rw [prefix_content_succ c.bs t htlen] at hp1 ⊢
                  rw [min_eq_right (by omega), min_eq_right (by omega)]
              have ht1M : t + 1 ≤ c.M := by
                rcases hc.2.2 with ⟨hA, hM, hL⟩ | ⟨K, hK, hcE, hlE, hM, hL⟩
                · omega
                · have h1 : t ≤ K := htK K hK hcE hM
                  rcases Nat.lt_or_ge t K with h2 | h2
                  · omega
                  · exfalso
                    have h3 : t = K := by omega
                    apply hclip
                    rw [hcp, hce, hcE, h3]
              have hscjt : scanned c j ≤ scanned c t := scanned_mono c j t hjt
              have hcurr2 :
                  ({ ({ loaded_group (segment c.bs j t) (scanned c t - scanned c j) ρ with
                      h_compressed_blocks :=
                        (loaded_group (segment c.bs j t) (scanned c t - scanned c j)
                          ρ).h_compressed_blocks ++ (c.bs.getD t dblock).payload
                    } : decompression_blocks).add_block_offsets
                      { block_size := (c.bs.getD t dblock).payload.length + 26,
                        extra_length := 6 }
                      { decompressed_size := (c.bs.getD t dblock).content.length } with
                    available_decompressed_size :=
                      (({ loaded_group (segment c.bs j t) (scanned c t - scanned c j) ρ with
                        h_compressed_blocks :=
                          (loaded_group (segment c.bs j t) (scanned c t - scanned c j)
                            ρ).h_compressed_blocks ++ (c.bs.getD t dblock).payload
                      } : decompression_blocks).add_block_offsets
                        { block_size := (c.bs.getD t dblock).payload.length + 26,
                          extra_length := 6 }
                        { decompressed_size :=
                          (c.bs.getD t dblock).content.length
                        }).available_decompressed_size +
                        (c.bs.getD t dblock).content.length } :
                    decompression_blocks) =
                  loaded_group (segment c.bs j (t + 1))
                    (scanned c (t + 1) - scanned c j) ρ := by
                have hv : (({ loaded_group (segment c.bs j t)
                      (scanned c t - scanned c j) ρ with
                    h_compressed_blocks :=
                      (loaded_group (segment c.bs j t) (scanned c t - scanned c j)
                        ρ).h_compressed_blocks ++ (c.bs.getD t dblock).payload
                  } : decompression_blocks).add_block_offsets
                    { block_size := (c.bs.getD t dblock).payload.length + 26,
                      extra_length := 6 }
                    { decompressed_size :=
                      (c.bs.getD t dblock).content.length
                    }).available_decompressed_size +
                    (c.bs.getD t dblock).content.length =
                    scanned c (t + 1) - scanned c j := by
                  show (scanned c t - scanned c j) + (c.bs.getD t dblock).content.length = _
                  omega
                rw [hv]
                have hstep := loaded_group_step (segment c.bs j t) (c.bs.getD t dblock)
                  (scanned c t - scanned c j) ρ (scanned c (t + 1) - scanned c j)
                rw [← segment_succ c.bs j t hjt htlen] at hstep
                exact hstep
              rw [if_neg hclip, hcurr2]
              have hgoalcp : r.compressed_pos + ((c.bs.getD t dblock).payload.length + 26) =
                  ser_offset c.bs (t + 1) := by
                rw [hcp]
                exact hcp1
              rw [show (ser_offset c.bs t + 18 + (c.bs.getD t dblock).payload.length + 8 :
                Nat) = ser_offset c.bs (t + 1) from hpos1]
              rw [hgoalcp]
              obtain ⟨m, r', hm1, hm2, heq, ha1, ha2, ha3, ha4, ha5, ha6, ha7, ha8, ha9⟩ :=
                ih j (t + 1) ρ
                  { r with
                    data_stream :=
                      ⟨serialize_blocks c.bs, ser_offset c.bs (t + 1), false⟩
                    curr_blocks := loaded_group (segment c.bs j (t + 1))
                      (scanned c (t + 1) - scanned c j) ρ
                    compressed_pos := ser_offset c.bs (t + 1) }
                  (by omega) ht1M (by omega) rfl rfl
                  (by intro h2; exact absurd h2 (by simp)) rfl hce hle rfl
              exact ⟨m, r', by omega, hm2, heq, ha1, ha2, ha3, ha4, ha5, ha6, ha7, ha8, ha9⟩

theorem reset_eq_empty (g : decompression_blocks)
    (h1 : g.h_compressed_offsets.take 1 = [0])
    (h2 : g.h_decompressed_offsets.take 1 = [0]) :
    g.reset = loaded_group [] 0 0 := by
  unfold decompression_blocks.reset loaded_group
  rw [h1, h2]
  rfl

/-- `read_next_compressed_chunk` on a well-formed stream: swaps the groups and
accumulates blocks `t..m` into the freshly reset current group. -/
theorem read_next_compressed_chunk_spec (c : range_ctx) (hc : ctx_wf c) (req : Nat)
    (r : reader_state) (t : Nat)
    (htM : t ≤ c.M)
    (hdata : r.data_stream.data = serialize_blocks c.bs)
    (hpos : r.data_stream.pos = ser_offset c.bs t)
    (heof : r.data_stream.eofbit = true → t = c.bs.length)
    (hcp : r.compressed_pos = ser_offset c.bs t)
    (hce : r.compressed_end = c.cEnd)
    (hle : r.local_end = c.lEnd)
    (hprev1 : r.prev_blocks.h_compressed_offsets.take 1 = [0])
    (hprev2 : r.prev_blocks.h_decompressed_offsets.take 1 = [0]) :
    ∃ m r', t ≤ m ∧ m ≤ c.M ∧
      read_next_compressed_chunk req r = .ok r' ∧
      r'.data_stream.data = serialize_blocks c.bs ∧
      r'.data_stream.pos = ser_offset c.bs m ∧
      (r'.data_stream.eofbit = true → m = c.bs.length) ∧
      r'.compressed_pos = ser_offset c.bs m ∧
      r'.compressed_end = c.cEnd ∧
      r'.local_end = c.lEnd ∧
      r'.prev_blocks = r.curr_blocks ∧
      r'.curr_blocks = loaded_group (segment c.bs t m) (scanned c m - scanned c t) 0 ∧
      (req ≤ prefix_content c.bs m - prefix_content c.bs t ∨ m = c.M) := by
  unfold read_next_compressed_chunk
  have hreset : r.prev_blocks.reset =
      loaded_group (segment c.bs t t) (scanned c t - scanned c t) 0 := by
    rw [reset_eq_empty r.prev_blocks hprev1 hprev2, segment_self]
    congr 1
    omega
  have hfuel : c.bs.length - t < r.data_stream.data.length + 1 := by
    have h1 := blocks_le_serialized c.bs
    rw [hdata]
    omega
  obtain ⟨m, r', hm1, hm2, heq, ha1, ha2, ha3, ha4, ha5, ha6, ha7, ha8, ha9⟩ :=
    read_chunk_loop_spec c hc req (r.data_stream.data.length + 1) t t 0
      { r with curr_blocks := r.prev_blocks.reset, prev_blocks := r.curr_blocks }
      (le_refl t) htM hfuel hdata hpos heof hcp hce hle hreset
  exact ⟨m, r', hm1, hm2, heq, ha1, ha2, ha3, ha4, ha5, ha6, ha7, ha8, ha9⟩

/-- Construction with `virtual_begin = 0` establishes the reader invariant at
logical position 0. -/
theorem mk_reader_spec (c : range_ctx) (hc : ctx_wf c) (ve : Nat)
    (hcE : ve / 65536 = c.cEnd) (hlE : ve % 65536 = c.lEnd) :
    ∃ m r, m ≤ c.M ∧
      mk_reader 0 ve (serialize_blocks c.bs) = .ok r ∧
      r.curr_blocks = loaded_group (segment c.bs 0 m) (scanned c m) 0 ∧
      (chunk_load_size ≤ prefix_content c.bs m ∨ m = c.M) ∧
      inv c r 0 := by
  simp only [mk_reader]
  obtain ⟨m, r', hm1, hm2, heq, ha1, ha2, ha3, ha4, ha5, ha6, ha7, ha8, ha9⟩ :=
    read_next_compressed_chunk_spec c hc chunk_load_size
      { data_stream := seekCur (((0 : Nat) / 65536 : Nat) : Int)
          { data := serialize_blocks c.bs, pos := 0, eofbit := false }
        prev_blocks := decompression_blocks.init
        curr_blocks := decompression_blocks.init
        local_end := ve % 65536
        compressed_pos := 0 / 65536
        compressed_end := ve / 65536 } 0
      (Nat.zero_le _) rfl rfl (by intro h; simp [seekCur] at h) rfl hcE hlE rfl rfl
  rw [heq]
  have hscan0 : scanned c 0 = 0 := by
    unfold scanned
    rw [prefix_content_zero]
    omega
  refine ⟨m, r', hm2, ?_, ?_, ?_, ?_⟩
  · simp only []
    rw [if_neg (by omega)]
  · rw [ha8, hscan0, Nat.sub_zero]
  · rcases ha9 with h | h
    · left
      rw [prefix_content_zero] at h
      omega
    · right
      exact h
  · refine ⟨0, m, 0, false, Nat.zero_le m, hm2, ha1, ha2, ha3, ha4, ha5, ha6, ?_, ?_, ?_,
      ?_, ?_, ?_, ?_⟩
    · rw [if_neg (by simp)]
      rw [ha8, hscan0]
    · rw [hscan0]
      omega
    · rw [hscan0]
      exact Nat.zero_le _
    · rw [hscan0]
    · rw [ha7]
      rfl
    · rw [ha7]
      rfl
    · rw [ha7]
      rfl

/-! ## Decompression and consumption helpers -/

theorem loaded_group_read_pos (seg : List bgzip_block) (a p : Nat) :
    (loaded_group seg a p).read_pos = p := rfl

theorem decompress_read_pos (backend : List Nat → List Nat) (g : decompression_blocks) :
    (g.decompress backend).read_pos = g.read_pos := by
  unfold decompression_blocks.decompress
  split <;> rfl

theorem decompress_available (backend : List Nat → List Nat) (g : decompression_blocks) :
    (g.decompress backend).available_decompressed_size =
      g.available_decompressed_size := by
  unfold decompression_blocks.decompress
  split <;> rfl

theorem decompress_remaining (backend : List Nat → List Nat) (g : decompression_blocks) :
    (g.decompress backend).remaining_size = g.remaining_size := by
  unfold decompression_blocks.remaining_size
  rw [decompress_read_pos, decompress_available]

theorem decompress_h_comp (backend : List Nat → List Nat) (g : decompression_blocks) :
    (g.decompress backend).h_compressed_offsets = g.h_compressed_offsets := by
  unfold decompression_blocks.decompress
  split <;> rfl

theorem decompress_h_decomp (backend : List Nat → List Nat) (g : decompression_blocks) :
    (g.decompress backend).h_decompressed_offsets = g.h_decompressed_offsets := by
  unfold decompression_blocks.decompress
  split <;> rfl

theorem decompress_flag_true (backend : List Nat → List Nat) (g : decompression_blocks) :
    (g.decompress backend).is_decompressed = true := by
  unfold decompression_blocks.decompress
  split
  · assumption
  · rfl

theorem decompress_of_true (backend : List Nat → List Nat) (g : decompression_blocks)
    (h : g.is_decompressed = true) : g.decompress backend = g := by
  unfold decompression_blocks.decompress
  rw [if_pos h]

theorem decompress_idem (backend : List Nat → List Nat) (g : decompression_blocks) :
    (g.decompress backend).decompress backend = g.decompress backend :=
  decompress_of_true backend _ (decompress_flag_true backend g)

theorem consume_bytes_ok (g : decompression_blocks) (size : Nat)
    (h : size ≤ g.remaining_size) :
    g.consume_bytes size = .ok { g with read_pos := g.read_pos + size } := by
  unfold decompression_blocks.consume_bytes
  rw [if_pos h]

theorem decompress_consume (backend : List Nat → List Nat) (seg : List bgzip_block)
    (a p x : Nat) (hx : x ≤ a - p) :
    ((loaded_group seg a p).decompress backend).consume_bytes x =
      .ok ((loaded_group seg a (p + x)).decompress backend) := by
  unfold decompression_blocks.consume_bytes
  rw [if_pos (by rw [decompress_remaining, loaded_group_remaining]; exact hx)]
  congr 1

/-! ## Range-limit facts -/

theorem scanned_M_eq_L (c : range_ctx) (hc : ctx_wf c) : scanned c c.M = c.L := by
  unfold scanned
  rcases hc.2.2 with ⟨hA, hM, hL⟩ | ⟨K, hK, hcE, hlE, hM, hL⟩
  · rw [hM, hL]
    exact min_self _
  · rw [hM, hL, prefix_content_succ c.bs K hK]
    exact min_eq_left (by omega)

theorem L_le_all (c : range_ctx) (hc : ctx_wf c) :
    c.L ≤ prefix_content c.bs c.bs.length := by
  rcases hc.2.2 with ⟨hA, hM, hL⟩ | ⟨K, hK, hcE, hlE, hM, hL⟩
  · omega
  · have h1 : prefix_content c.bs (K + 1) ≤ prefix_content c.bs c.bs.length :=
      prefix_content_mono c.bs (K + 1) c.bs.length (by omega)
    rw [prefix_content_succ c.bs K hK] at h1
    omega

theorem exposed_length (c : range_ctx) (hc : ctx_wf c) : (exposed c).length = c.L := by
  unfold exposed
  rw [List.length_take, all_content_length]
  exact min_eq_left (L_le_all c hc)

theorem scanned_prefix_lt_M (c : range_ctx) (hc : ctx_wf c) (m : Nat) (hm : m < c.M) :
    scanned c m = prefix_content c.bs m := by
  unfold scanned
  rcases hc.2.2 with ⟨hA, hM, hL⟩ | ⟨K, hK, hcE, hlE, hM, hL⟩
  · rw [hL]
    exact min_eq_right (prefix_content_mono c.bs m c.bs.length (by omega))
  · rw [hL]
    have h1 : prefix_content c.bs m ≤ prefix_content c.bs K :=
      prefix_content_mono c.bs m K (by omega)
    exact min_eq_right (by omega)

theorem segment_mem (bs : List bgzip_block) (j m : Nat) :
    ∀ b ∈ segment bs j m, b ∈ bs := by
  intro b hb
  unfold segment at hb
  exact List.mem_of_mem_take (List.mem_of_mem_drop hb)

/-- Serving `n` bytes starting `p` into a group holding blocks `j..m` reads the
logical bytes `scanned j + p ..+ n` of the exposed sequence. -/
theorem serve_slice (c : range_ctx) (j m p n : Nat) (hjm : j ≤ m)
    (hn : p + n ≤ scanned c m - scanned c j) :
    extractBytes (((segment c.bs j m).map fun b => b.content).flatten) p n =
      extractBytes (exposed c) (scanned c j + p) n := by
  rcases Nat.eq_zero_or_pos n with hn0 | hn0
  · subst hn0
    simp [extractBytes]
  · have hjlt : scanned c j < scanned c m := by omega
    have hjL : scanned c j < c.L := by
      have := scanned_le c m
      omega
    have hsj : scanned c j = prefix_content c.bs j := by
      unfold scanned at hjL ⊢
      rcases Nat.le_total c.L (prefix_content c.bs j) with h | h
      · rw [min_eq_left h] at hjL
        omega
      · exact min_eq_right h
    have hnm : p + n ≤ prefix_content c.bs m - prefix_content c.bs j := by
      have h1 : scanned c m ≤ prefix_content c.bs m := Nat.min_le_right _ _
      have h2 : scanned c m - scanned c j ≤
          prefix_content c.bs m - prefix_content c.bs j := by
        rw [hsj] at hjlt ⊢
        omega
      omega
    have hnL : p + n ≤ c.L - prefix_content c.bs j := by
      have h1 : scanned c m ≤ c.L := scanned_le c m
      rw [hsj] at hn hjlt
      omega
    rw [segment_content_extract c.bs j m hjm, hsj]
    unfold extractBytes exposed
    rw [List.drop_take, List.take_take, List.drop_take, List.take_take, List.drop_drop]
    congr 1
    omega

/-! ## Serving chunks under the invariant -/

/-- `get_next_chunk` under the reader invariant: returns exactly the next
`min n (L - k)` logical bytes of the exposed sequence and re-establishes the
invariant at the advanced position. -/
theorem get_next_chunk_spec (c : range_ctx) (hc : ctx_wf c) (r : reader_state)
    (k n : Nat) (hinv : inv c r k) :
    ∃ chunk r', get_next_chunk c.backend n r = .ok (chunk, r') ∧
      chunk = extractBytes (exposed c) k (min n (c.L - k)) ∧
      chunk.length = min n (c.L - k) ∧
      inv c r' (k + min n (c.L - k)) := by
  obtain ⟨j, m, ρ, dec, hjm, hmM, hdata, hpos, heof, hcp, hce, hle, hcurr, hρ, hsjm, hk,
    hprev0, hprev1, hprev2⟩ := hinv
  have hbkseg : ∀ b ∈ segment c.bs j m, c.backend b.payload = b.content := fun b hb =>
    hc.2.1 b (segment_mem c.bs j m b hb)
  have hcb : r.curr_blocks.decompress c.backend =
      (loaded_group (segment c.bs j m) (scanned c m - scanned c j) ρ).decompress
        c.backend := by
    cases dec with
    | true =>
      rw [if_pos rfl] at hcurr
      rw [hcurr, decompress_idem]
    | false =>
      rw [if_neg (by simp)] at hcurr
      rw [hcurr]
  have hrem : r.curr_blocks.remaining_size = (scanned c m - scanned c j) - ρ := by
    cases dec with
    | true =>
      rw [if_pos rfl] at hcurr
      rw [hcurr, decompress_remaining, loaded_group_remaining]
    | false =>
      rw [if_neg (by simp)] at hcurr
      rw [hcurr, loaded_group_remaining]
  have hscm := scanned_le c m
  have hkL : k ≤ c.L := by omega
  unfold get_next_chunk
  by_cases hfits : n ≤ r.curr_blocks.remaining_size
  case pos =>
    rw [if_pos hfits]
    rw [hrem] at hfits
    have hminn : min n (c.L - k) = n := min_eq_left (by omega)
    simp only [hcb]
    rw [decompress_consume c.backend _ _ _ n (by omega)]
    simp only []
    have hchunk : extractBytes
        (((loaded_group (segment c.bs j m) (scanned c m - scanned c j)
          ρ).decompress c.backend).d_decompressed_blocks)
        (((loaded_group (segment c.bs j m) (scanned c m - scanned c j)
          ρ).decompress c.backend).read_pos) n =
        extractBytes (exposed c) k (min n (c.L - k)) := by
      rw [decompress_loaded_blocks c.backend _ _ _ hbkseg, decompress_read_pos,
        loaded_group_read_pos, hminn]
      rw [serve_slice c j m ρ n hjm (by omega), ← hk]
    refine ⟨_, _, rfl, hchunk, ?_, ?_⟩
    · rw [hchunk, extractBytes_length, exposed_length c hc]
      omega
    · exact ⟨j, m, ρ + n, true, hjm, hmM, hdata, hpos, heof, hcp, hce, hle,
        by rw [if_pos rfl], by omega, hsjm, by omega, hprev0, hprev1, hprev2⟩
  case neg =>
    rw [if_neg hfits]
    rw [hrem] at hfits
    obtain ⟨m2, r1, hm21, hm22, heq, hb1, hb2, hb3, hb4, hb5, hb6, hb7, hb8, hb9⟩ :=
      read_next_compressed_chunk_spec c hc n r m hmM hdata hpos heof hcp hce hle
        hprev1 hprev2
    simp only [heq]
    have hbkseg2 : ∀ b ∈ segment c.bs m m2, c.backend b.payload = b.content := fun b hb =>
      hc.2.1 b (segment_mem c.bs m m2 b hb)
    have hpb : r1.prev_blocks.decompress c.backend =
        (loaded_group (segment c.bs j m) (scanned c m - scanned c j) ρ).decompress
          c.backend := by
      rw [hb7]
      exact hcb
    have hcbb : r1.curr_blocks.decompress c.backend =
        (loaded_group (segment c.bs m m2) (scanned c m2 - scanned c m) 0).decompress
          c.backend := by
      rw [hb8]
    simp only [hpb, hcbb]
    have hremp : ((loaded_group (segment c.bs j m) (scanned c m - scanned c j)
        ρ).decompress c.backend).remaining_size = (scanned c m - scanned c j) - ρ := by
      rw [decompress_remaining, loaded_group_remaining]
    have hremc : ((loaded_group (segment c.bs m m2) (scanned c m2 - scanned c m)
        0).decompress c.backend).remaining_size = scanned c m2 - scanned c m := by
      rw [decompress_remaining, loaded_group_remaining, Nat.sub_zero]
    simp only [hremp, hremc]
    have hscm2 := scanned_le c m2
    have hsmm2 : scanned c m ≤ scanned c m2 := scanned_mono c m m2 hm21
    have hsize : min n ((scanned c m - scanned c j - ρ) + (scanned c m2 - scanned c m)) =
        min n (c.L - k) := by
      by_cases hm2M : m2 = c.M
      · have hL2 : scanned c m2 = c.L := by
          rw [hm2M]
          exact scanned_M_eq_L c hc
        have hXY : (scanned c m - scanned c j - ρ) + (scanned c m2 - scanned c m) =
            c.L - k := by omega
        rw [hXY]
      · have hfirst : n ≤ prefix_content c.bs m2 - prefix_content c.bs m :=
          hb9.resolve_right hm2M
        have hm2lt : m2 < c.M := by omega
        have hpm2 : scanned c m2 = prefix_content c.bs m2 :=
          scanned_prefix_lt_M c hc m2 hm2lt
        have hpm : scanned c m = prefix_content c.bs m :=
          scanned_prefix_lt_M c hc m (by omega)
        have hpmono : prefix_content c.bs m ≤ prefix_content c.bs m2 :=
          prefix_content_mono c.bs m m2 hm21
        rw [min_eq_left (by omega), min_eq_left (by omega)]
    rw [decompress_consume c.backend _ _ _ ((scanned c m - scanned c j) - ρ) (by omega)]
    rw [decompress_consume c.backend _ _ _
      (min n ((scanned c m - scanned c j - ρ) + (scanned c m2 - scanned c m)) -
        (scanned c m - scanned c j - ρ)) (by omega)]
    simp only []
    have hchunk : extractBytes
        (((loaded_group (segment c.bs j m) (scanned c m - scanned c j)
          ρ).decompress c.backend).d_decompressed_blocks)
        (((loaded_group (segment c.bs j m) (scanned c m - scanned c j)
          ρ).decompress c.backend).read_pos) ((scanned c m - scanned c j) - ρ) ++
        extractBytes
        (((loaded_group (segment c.bs m m2) (scanned c m2 - scanned c m)
          0).decompress c.backend).d_decompressed_blocks)
        (((loaded_group (segment c.bs m m2) (scanned c m2 - scanned c m)
          0).decompress c.backend).read_pos)
        (min n ((scanned c m - scanned c j - ρ) + (scanned c m2 - scanned c m)) -
          (scanned c m - scanned c j - ρ)) =
        extractBytes (exposed c) k (min n (c.L - k)) := by
      rw [decompress_loaded_blocks c.backend _ _ _ hbkseg, decompress_read_pos,
        loaded_group_read_pos, decompress_loaded_blocks c.backend _ _ _ hbkseg2,
        decompress_read_pos, loaded_group_read_pos]
      rw [serve_slice c j m ρ ((scanned c m - scanned c j) - ρ) hjm (by omega)]
      rw [serve_slice c m m2 0
        (min n ((scanned c m - scanned c j - ρ) + (scanned c m2 - scanned c m)) -
          (scanned c m - scanned c j - ρ)) hm21 (by omega)]
      rw [show scanned c j + ρ = k from hk.symm]
      rw [show scanned c m + 0 = k + ((scanned c m - scanned c j) - ρ) from by omega]
      rw [extractBytes_append]
      rw [show (scanned c m - scanned c j - ρ) +
        (min n ((scanned c m - scanned c j - ρ) + (scanned c m2 - scanned c m)) -
          (scanned c m - scanned c j - ρ)) =
        min n ((scanned c m - scanned c j - ρ) + (scanned c m2 - scanned c m)) from by
          omega]
      rw [hsize]
    refine ⟨_, _, rfl, hchunk, ?_, ?_⟩
    · rw [hchunk, extractBytes_length, exposed_length c hc]
      omega
    · refine ⟨m, m2,
        0 + (min n ((scanned c m - scanned c j - ρ) + (scanned c m2 - scanned c m)) -
          (scanned c m - scanned c j - ρ)), true,
        hm21, hm22, hb1, hb2, hb3, hb4, hb5, hb6, by rw [if_pos rfl], by omega, hsmm2,
        by omega, ?_, ?_, ?_⟩
      · show ((loaded_group (segment c.bs j m) (scanned c m - scanned c j)
          (ρ + (scanned c m - scanned c j - ρ))).decompress c.backend).remaining_size = 0
        rw [decompress_remaining, loaded_group_remaining]
        omega
      · show ((loaded_group (segment c.bs j m) (scanned c m - scanned c j)
          (ρ + (scanned c m - scanned c j - ρ))).decompress
            c.backend).h_compressed_offsets.take 1 = [0]
        rw [decompress_h_comp]
        exact cum_offsets_take_one _
      · show ((loaded_group (segment c.bs j m) (scanned c m - scanned c j)
          (ρ + (scanned c m - scanned c j - ρ))).decompress
            c.backend).h_decompressed_offsets.take 1 = [0]
        rw [decompress_h_decomp]
        exact cum_offsets_take_one _

theorem loaded_consume (seg : List bgzip_block) (a p x : Nat) (hx : x ≤ a - p) :
    (loaded_group seg a p).consume_bytes x = .ok (loaded_group seg a (p + x)) := by
  unfold decompression_blocks.consume_bytes
  rw [if_pos (by rw [loaded_group_remaining]; exact hx)]
  congr 1

/-- The drain loop of `skip_bytes` under the reader invariant: drains whole
groups and loads further chunks until the remaining skip amount `n1` fits in
the current group or end of range/stream, having advanced the logical position
by `n - n1`. -/
theorem skip_loop_spec (c : range_ctx) (hc : ctx_wf c) :
    ∀ (fuel n k j m ρ : Nat) (dec : Bool) (r : reader_state), j ≤ m → m ≤ c.M →
      c.bs.length - m < fuel →
      r.data_stream.data = serialize_blocks c.bs →
      r.data_stream.pos = ser_offset c.bs m →
      (r.data_stream.eofbit = true → m = c.bs.length) →
      r.compressed_pos = ser_offset c.bs m →
      r.compressed_end = c.cEnd →
      r.local_end = c.lEnd →
      r.curr_blocks = (if dec then
        (loaded_group (segment c.bs j m) (scanned c m - scanned c j) ρ).decompress
          c.backend
        else loaded_group (segment c.bs j m) (scanned c m - scanned c j) ρ) →
      ρ ≤ scanned c m - scanned c j →
      k = scanned c j + ρ →
      r.prev_blocks.remaining_size = 0 →
      r.prev_blocks.h_compressed_offsets.take 1 = [0] →
      r.prev_blocks.h_decompressed_offsets.take 1 = [0] →
      ∃ n1 r1 k1, skip_loop fuel n r = .ok (n1, r1) ∧ inv c r1 k1 ∧ n1 ≤ n ∧
        k1 = k + (n - n1) ∧
        (n1 ≤ r1.curr_blocks.remaining_size ∨
          r1.curr_blocks.remaining_size = c.L - k1) := by
  intro fuel
  induction fuel with
  | zero =>
    intro n k j m ρ dec r _ _ hfuel
    omega
  | succ f ih =>
    intro n k j m ρ dec r hjm hmM hfuel hdata hpos heof hcp hce hle hcurr hρ hk hprev0
      hprev1 hprev2
    have hsjm : scanned c j ≤ scanned c m := scanned_mono c j m hjm
    have hscm := scanned_le c m
    have hrem : r.curr_blocks.remaining_size = (scanned c m - scanned c j) - ρ := by
      cases dec with
      | true =>
        rw [if_pos rfl] at hcurr
        rw [hcurr, decompress_remaining, loaded_group_remaining]
      | false =>
        rw [if_neg (by simp)] at hcurr
        rw [hcurr, loaded_group_remaining]
    unfold skip_loop
    by_cases hgt : n > r.curr_blocks.remaining_size
    case neg =>
      rw [if_neg hgt]
      refine ⟨n, r, k, rfl, ⟨j, m, ρ, dec, hjm, hmM, hdata, hpos, heof, hcp, hce, hle,
        hcurr, hρ, hsjm, hk, hprev0, hprev1, hprev2⟩, le_refl n, by omega, Or.inl (by omega)⟩
    case pos =>
      rw [if_pos hgt]
      -- drain the current group
      have hdrain : r.curr_blocks.consume_bytes r.curr_blocks.remaining_size =
          .ok (if dec then
            (loaded_group (segment c.bs j m) (scanned c m - scanned c j)
              (ρ + ((scanned c m - scanned c j) - ρ))).decompress c.backend
          else loaded_group (segment c.bs j m) (scanned c m - scanned c j)
            (ρ + ((scanned c m - scanned c j) - ρ))) := by
        cases dec with
        | true =>
          rw [if_pos rfl] at hcurr
          rw [if_pos rfl, hcurr, decompress_remaining, loaded_group_remaining]
          exact decompress_consume c.backend _ _ _ _ (by omega)
        | false =>
          rw [if_neg (by simp)] at hcurr
          rw [if_neg (by simp), hcurr, loaded_group_remaining]
          exact loaded_consume _ _ _ _ (by omega)
      rw [hdrain]
      simp only []
      -- load the next chunk
      obtain ⟨m2, r1, hm21, hm22, heq, hb1, hb2, hb3, hb4, hb5, hb6, hb7, hb8, hb9⟩ :=
        read_next_compressed_chunk_spec c hc chunk_load_size
          { r with curr_blocks := (if dec then
              (loaded_group (segment c.bs j m) (scanned c m - scanned c j)
                (ρ + ((scanned c m - scanned c j) - ρ))).decompress c.backend
            else loaded_group (segment c.bs j m) (scanned c m - scanned c j)
              (ρ + ((scanned c m - scanned c j) - ρ))) }
          m hmM hdata hpos heof hcp hce hle hprev1 hprev2
      rw [heq]
      simp only []
      have hdrained_rem : r1.prev_blocks.remaining_size = 0 := by
        rw [hb7]
        cases dec with
        | true =>
          show ((loaded_group _ _ _).decompress c.backend).remaining_size = 0
          rw [decompress_remaining, loaded_group_remaining]
          omega
        | false =>
          show (loaded_group _ _ _).remaining_size = 0
          rw [loaded_group_remaining]
          omega
      have hdrained_t1 : r1.prev_blocks.h_compressed_offsets.take 1 = [0] := by
        rw [hb7]
        cases dec with
        | true =>
          show ((loaded_group _ _ _).decompress c.backend).h_compressed_offsets.take 1 = _
          rw [decompress_h_comp]
          exact cum_offsets_take_one _
        | false =>
          exact cum_offsets_take_one _
      have hdrained_t2 : r1.prev_blocks.h_decompressed_offsets.take 1 = [0] := by
        rw [hb7]
        cases dec with
        | true =>
          show ((loaded_group _ _ _).decompress c.backend).h_decompressed_offsets.take 1 = _
          rw [decompress_h_decomp]
          exact cum_offsets_take_one _
        | false =>
          exact cum_offsets_take_one _
      have hsmm2 : scanned c m ≤ scanned c m2 := scanned_mono c m m2 hm21
      have hscm2 := scanned_le c m2
      have hMeq : m2 = c.M → scanned c m2 = c.L := by
        intro h
        rw [h]
        exact scanned_M_eq_L c hc
      have hMlen : c.M ≤ c.bs.length := ctx_M_le c hc
      -- the remaining skip amount afterwards
      by_cases heof1 : r1.data_stream.eofbit
      case pos =>
        rw [if_pos heof1]
        have hm2len : m2 = c.bs.length := hb3 heof1
        have hm2M : m2 = c.M := by
          rcases hc.2.2 with ⟨_, hM, _⟩ | ⟨K, hK, _, _, hM, _⟩ <;> omega
        refine ⟨n - r.curr_blocks.remaining_size, r1, scanned c m, rfl,
          ⟨m, m2, 0, false, hm21, hm22, hb1, hb2, hb3, hb4, hb5, hb6,
            by rw [if_neg (by simp)]; rw [hb8], by omega, hsmm2, by omega,
            hdrained_rem, hdrained_t1, hdrained_t2⟩, by omega, by omega, ?_⟩
        right
        rw [hb8, loaded_group_remaining, Nat.sub_zero, hMeq hm2M]
      case neg =>
        rw [if_neg heof1]
        have heof1f : r1.data_stream.eofbit = false := by
          simp at heof1
          exact heof1
        have hsr1 : r1.data_stream =
            ⟨serialize_blocks c.bs, ser_offset c.bs m2, false⟩ := by
          cases hs1 : r1.data_stream with
          | mk d q e =>
            rw [hs1] at hb1 hb2 heof1f
            simp only [] at hb1 hb2 heof1f
            rw [hb1, hb2, heof1f]
        by_cases hm2len : m2 < c.bs.length
        case neg =>
          have hm2l : m2 = c.bs.length := by omega
          have hpk : speek r1.data_stream =
              .ok ⟨serialize_blocks c.bs, ser_offset c.bs m2, true⟩ := by
            rw [hsr1]
            apply speek_end
            rw [hm2l, ← serialize_blocks_length]
          simp only [hpk]
          rw [if_pos (show True ∨ r1.compressed_pos > r1.compressed_end from
            Or.inl trivial)]
          have hm2M : m2 = c.M := by
            rcases hc.2.2 with ⟨_, hM, _⟩ | ⟨K, hK, _, _, hM, _⟩ <;> omega
          refine ⟨n - r.curr_blocks.remaining_size, _, scanned c m, rfl,
            ⟨m, m2, 0, false, hm21, hm22, rfl, rfl, fun _ => hm2l, hb4, hb5, hb6,
              by rw [if_neg (by simp)]; rw [hb8], by omega, hsmm2, by omega,
              hdrained_rem, hdrained_t1, hdrained_t2⟩, by omega, by omega, ?_⟩
          right
          rw [hb8, loaded_group_remaining, Nat.sub_zero, hMeq hm2M]
        case pos =>
          have hpk : speek r1.data_stream = .ok r1.data_stream := by
            rw [hsr1]
            apply speek_mid
            rw [serialize_blocks_length]
            exact ser_offset_lt c.bs m2 c.bs.length hm2len hm2len
          simp only [hpk]
          by_cases hpast : r1.compressed_pos > r1.compressed_end
          case pos =>
            rw [if_pos (Or.inr hpast)]
            have hm2M : m2 = c.M := by
              rcases hc.2.2 with ⟨hA, hM, _⟩ | ⟨K, hK, hcE, _, hM, _⟩
              · exfalso
                rw [hb4, hb5] at hpast
                have h1 : ser_offset c.bs m2 ≤ (serialize_blocks c.bs).length :=
                  ser_offset_le_length c.bs m2
                omega
              · rw [hb4, hb5, hcE] at hpast
                by_contra hne
                have h2 : m2 ≤ K := by omega
                have := ser_offset_mono c.bs m2 K h2
                omega
            refine ⟨n - r.curr_blocks.remaining_size, _, scanned c m, rfl,
              ⟨m, m2, 0, false, hm21, hm22, hb1, hb2, hb3, hb4, hb5, hb6,
                by rw [if_neg (by simp)]; rw [hb8], by omega, hsmm2, by omega,
                hdrained_rem, hdrained_t1, hdrained_t2⟩, by omega, by omega, ?_⟩
            right
            rw [hb8, loaded_group_remaining, Nat.sub_zero, hMeq hm2M]
          case neg =>
            rw [if_neg (by
              intro hor
              rcases hor with h1 | h2
              · rw [heof1f] at h1
                exact Bool.false_ne_true h1
              · exact hpast h2)]
            -- the loop continues: at least one block was loaded
            have hm2M : m2 ≠ c.M := by
              rcases hc.2.2 with ⟨hA, hM, _⟩ | ⟨K, hK, hcE, _, hM, _⟩
              · omega
              · intro hcon
                apply hpast
                rw [hb4, hb5, hcE, hcon, hM]
                exact ser_offset_lt c.bs K (K + 1) (by omega) hK
            have hfirst : chunk_load_size ≤
                prefix_content c.bs m2 - prefix_content c.bs m := hb9.resolve_right hm2M
            have hm2m : m < m2 := by
              by_contra hcon
              have : m2 = m := by omega
              subst this
              simp [chunk_load_size] at hfirst
            obtain ⟨n1, r2, k2, hl1, hl2, hl3, hl4, hl5⟩ :=
              ih (n - r.curr_blocks.remaining_size) (scanned c m) m m2 0 false r1
                hm21 hm22 (by omega) hb1 hb2 hb3 hb4 hb5 hb6
                (by rw [if_neg (by simp)]; rw [hb8]) (by omega) (by omega)
                hdrained_rem hdrained_t1 hdrained_t2
            refine ⟨n1, r2, k2, hl1, hl2, by omega, by omega, hl5⟩

/-- `skip_bytes` under the reader invariant: never fails and advances the
logical position by exactly `min n (L - k)`. -/
theorem skip_bytes_spec (c : range_ctx) (hc : ctx_wf c) (r : reader_state)
    (k n : Nat) (hinv : inv c r k) :
    ∃ r', skip_bytes n r = .ok r' ∧ inv c r' (k + min n (c.L - k)) := by
  obtain ⟨j, m, ρ, dec, hjm, hmM, hdata, hpos, heof, hcp, hce, hle, hcurr, hρ, hsjm, hk,
    hprev0, hprev1, hprev2⟩ := hinv
  have hfuel : c.bs.length - m < r.data_stream.data.length + 1 := by
    have h1 := blocks_le_serialized c.bs
    rw [hdata]
    omega
  obtain ⟨n1, r1, k1, hl1, hl2, hl3, hl4, hl5⟩ :=
    skip_loop_spec c hc (r.data_stream.data.length + 1) n k j m ρ dec r hjm hmM hfuel
      hdata hpos heof hcp hce hle hcurr hρ hk hprev0 hprev1 hprev2
  obtain ⟨j2, m2, ρ2, dec2, hc1, hc2, hc3, hc4, hc5, hc6, hc7, hc8, hc9, hc10, hc11,
    hc12, hc13, hc14, hc15⟩ := hl2
  have hrem1 : r1.curr_blocks.remaining_size = (scanned c m2 - scanned c j2) - ρ2 := by
    cases dec2 with
    | true =>
      rw [if_pos rfl] at hc9
      rw [hc9, decompress_remaining, loaded_group_remaining]
    | false =>
      rw [if_neg (by simp)] at hc9
      rw [hc9, loaded_group_remaining]
  have hscm2 := scanned_le c m2
  have hkL : k ≤ c.L := by omega
  have hk1L : k1 ≤ c.L := by omega
  unfold skip_bytes
  rw [hl1]
  simp only []
  have hconsume : r1.curr_blocks.consume_bytes (min n1 r1.curr_blocks.remaining_size) =
      .ok (if dec2 then
        (loaded_group (segment c.bs j2 m2) (scanned c m2 - scanned c j2)
          (ρ2 + min n1 r1.curr_blocks.remaining_size)).decompress c.backend
      else loaded_group (segment c.bs j2 m2) (scanned c m2 - scanned c j2)
        (ρ2 + min n1 r1.curr_blocks.remaining_size)) := by
    cases dec2 with
    | true =>
      rw [if_pos rfl] at hc9
      rw [if_pos rfl, hc9]
      rw [hc9] at hrem1
      exact decompress_consume c.backend _ _ _ _ (by omega)
    | false =>
      rw [if_neg (by simp)] at hc9
      rw [if_neg (by simp), hc9]
      rw [hc9] at hrem1
      exact loaded_consume _ _ _ _ (by omega)
  rw [hconsume]
  simp only []
  have hkfin : k1 + min n1 r1.curr_blocks.remaining_size = k + min n (c.L - k) := by
    rcases hl5 with h | h
    · have h1 : min n1 r1.curr_blocks.remaining_size = n1 := min_eq_left h
      rw [h1]
      have h2 : k1 + r1.curr_blocks.remaining_size ≤ c.L := by
        rw [hrem1]
        omega
      omega
    · rw [h]
      omega
  have hminle : min n1 r1.curr_blocks.remaining_size ≤ r1.curr_blocks.remaining_size :=
    Nat.min_le_right _ _
  refine ⟨_, rfl, ?_⟩
  rw [← hkfin]
  exact ⟨j2, m2, ρ2 + min n1 r1.curr_blocks.remaining_size, dec2, hc1, hc2, hc3, hc4,
    hc5, hc6, hc7, hc8, rfl, by omega, hc11, by omega, hc13, hc14, hc15⟩

/-- Folding `get_next_chunk` over a list of request sizes serves exactly the
next `min (sizes.sum) (L - k)` logical bytes, in order. -/
theorem run_chunks_spec (c : range_ctx) (hc : ctx_wf c) :
    ∀ (sizes : List Nat) (r : reader_state) (k : Nat), inv c r k →
    ∃ chunks r', run_chunks c.backend sizes r = .ok (chunks, r') ∧
      chunks.flatten = extractBytes (exposed c) k (min sizes.sum (c.L - k)) ∧
      inv c r' (k + min sizes.sum (c.L - k)) := by
  intro sizes
  induction sizes with
  | nil =>
    intro r k hinv
    refine ⟨[], r, rfl, ?_, ?_⟩
    · simp [extractBytes]
    · simpa using hinv
  | cons n rest ih =>
    intro r k hinv
    have hkL : k ≤ c.L := by
      obtain ⟨j, m, ρ, dec, _, _, _, _, _, _, _, _, _, hρ, hsjm, hk, _, _, _⟩ := hinv
      have := scanned_le c m
      omega
    obtain ⟨chunk, r1, heq1, hch1, hlen1, hinv1⟩ := get_next_chunk_spec c hc r k n hinv
    obtain ⟨chunks, r2, heq2, hch2, hinv2⟩ := ih r1 (k + min n (c.L - k)) hinv1
    unfold run_chunks
    rw [heq1]
    simp only []
    rw [heq2]
    simp only []
    refine ⟨chunk :: chunks, r2, rfl, ?_, ?_⟩
    · rw [List.flatten_cons, hch1, hch2]
      rw [show k + min n (c.L - k) = k + min n (c.L - k) from rfl]
      have hs : min n (c.L - k) + min rest.sum (c.L - (k + min n (c.L - k))) =
          min (n + rest.sum) (c.L - k) := by omega
      rw [extractBytes_append, hs]
      rfl
    · have hs2 : k + min n (c.L - k) + min rest.sum (c.L - (k + min n (c.L - k))) =
          k + min (n :: rest).sum (c.L - k) := by
        simp only [List.sum_cons]
        omega
      rw [← hs2]
      exact hinv2

/-! ## Claim theorems -/

/-- C1: For every byte sequence compressed into a valid multi-block BGZIP
stream and every partition of the total length into request sizes, reading the
whole range via repeated `get_next_chunk` calls and concatenating the returned
buffers reproduces the original decompressed bytes exactly, independent of the
chunk-size choice, assuming the external decompression backend correctly
decompresses each block.  The reader is built over the whole file
(`virtual_begin = 0`, `virtual_end = 2^64 - 1`, the unbounded factory). -/
theorem c1_roundtrip (bs : List bgzip_block) (backend : List Nat → List Nat)
    (sizes : List Nat)
    (hwf : blocks_wf bs)
    (hbk : ∀ b ∈ bs, backend b.payload = b.content)
    (hlen : (serialize_blocks bs).length < 2 ^ 48)
    (hsum : sizes.sum = (all_content bs).length) :
    ∃ r₀ chunks r', mk_reader 0 (2 ^ 64 - 1) (serialize_blocks bs) = .ok r₀ ∧
      run_chunks backend sizes r₀ = .ok (chunks, r') ∧
      chunks.flatten = all_content bs := by
  have hdivle : (serialize_blocks bs).length ≤ (2 ^ 64 - 1) / 65536 := by
    have h1 : (2 ^ 64 - 1) / 65536 = 2 ^ 48 - 1 := by norm_num
    omega
  have hc : ctx_wf ⟨bs, backend, (2 ^ 64 - 1) / 65536, (2 ^ 64 - 1) % 65536,
      bs.length, prefix_content bs bs.length⟩ :=
    ⟨hwf, hbk, Or.inl ⟨hdivle, rfl, rfl⟩⟩
  obtain ⟨m, r₀, hm, hmk, hcur, hload, hinv⟩ :=
    mk_reader_spec ⟨bs, backend, (2 ^ 64 - 1) / 65536, (2 ^ 64 - 1) % 65536,
      bs.length, prefix_content bs bs.length⟩ hc (2 ^ 64 - 1) rfl rfl
  obtain ⟨chunks, r', hrun, hflat, hinv2⟩ :=
    run_chunks_spec ⟨bs, backend, (2 ^ 64 - 1) / 65536, (2 ^ 64 - 1) % 65536,
      bs.length, prefix_content bs bs.length⟩ hc sizes r₀ 0 hinv
  refine ⟨r₀, chunks, r', hmk, hrun, ?_⟩
  rw [hflat]
  have hsum2 : sizes.sum = prefix_content bs bs.length := by
    rw [hsum, all_content_length]
  unfold exposed extractBytes
  simp only []
  rw [List.drop_zero, Nat.sub_zero, hsum2, min_self, List.take_take, min_self,
    List.take_of_length_le (by rw [all_content_length])]

/-- Witness for C1 at a concrete two-block stream and the request partition
`[2, 2, 1]`. -/
theorem c1_roundtrip_witness :
    (blocks_wf wbs ∧ (∀ b ∈ wbs, wbackend b.payload = b.content) ∧
      (serialize_blocks wbs).length < 2 ^ 48 ∧
      ([2, 2, 1] : List Nat).sum = (all_content wbs).length) ∧
    (∃ r₀ chunks r', mk_reader 0 (2 ^ 64 - 1) (serialize_blocks wbs) = .ok r₀ ∧
      run_chunks wbackend [2, 2, 1] r₀ = .ok (chunks, r') ∧
      chunks.flatten = all_content wbs) :=
  ⟨⟨by unfold blocks_wf; decide, by decide, by decide, by decide⟩,
    c1_roundtrip wbs wbackend [2, 2, 1] (by unfold blocks_wf; decide) (by decide)
      (by decide) (by decide)⟩

/-- C4: A reader constructed with `virtual_end` pointing inside block `K`
(compressed offset of block `K`, local end `e < |content K|`) clips
`available_decompressed_size` to the local-end remainder when the scan reaches
`_compressed_end` (second conjunct: if the first load scanned through block `K`
then `available = prefix K + e`, strictly less than the full decompressed
prefix `prefix (K+1)`, and the scan stopped right after block `K`), and the
reader never serves bytes beyond the `prefix K + e` logical boundary (third
conjunct, for every request-size sequence). -/
theorem c4_virtual_end_clipping (bs : List bgzip_block) (backend : List Nat → List Nat)
    (K e : Nat)
    (hwf : blocks_wf bs)
    (hbk : ∀ b ∈ bs, backend b.payload = b.content)
    (hK : K < bs.length)
    (he : e < (bs.getD K dblock).content.length)
    (he2 : e < 65536) :
    ∃ r₀, mk_reader 0 (ser_offset bs K * 65536 + e) (serialize_blocks bs) = .ok r₀ ∧
      (∃ m, m ≤ K + 1 ∧
        r₀.curr_blocks = loaded_group (segment bs 0 m)
          (min (prefix_content bs K + e) (prefix_content bs m)) 0 ∧
        (m = K + 1 →
          r₀.curr_blocks.available_decompressed_size = prefix_content bs K + e ∧
          r₀.curr_blocks.available_decompressed_size < prefix_content bs (K + 1))) ∧
      (∀ sizes : List Nat, ∃ chunks r', run_chunks backend sizes r₀ = .ok (chunks, r') ∧
        chunks.flatten =
          extractBytes ((all_content bs).take (prefix_content bs K + e)) 0
            (min sizes.sum (prefix_content bs K + e)) ∧
        chunks.flatten.length ≤ prefix_content bs K + e) := by
  have hdiv : (ser_offset bs K * 65536 + e) / 65536 = ser_offset bs K := by omega
  have hmod : (ser_offset bs K * 65536 + e) % 65536 = e := by omega
  have hc : ctx_wf ⟨bs, backend, ser_offset bs K, e, K + 1, prefix_content bs K + e⟩ :=
    ⟨hwf, hbk, Or.inr ⟨K, hK, rfl, he, rfl, rfl⟩⟩
  obtain ⟨m, r₀, hm, hmk, hcur, hload, hinv⟩ :=
    mk_reader_spec ⟨bs, backend, ser_offset bs K, e, K + 1, prefix_content bs K + e⟩ hc
      (ser_offset bs K * 65536 + e) hdiv hmod
  refine ⟨r₀, hmk, ⟨m, hm, ?_, ?_⟩, ?_⟩
  · rw [hcur]
    congr 1
  · intro hmK
    have hL : scanned ⟨bs, backend, ser_offset bs K, e, K + 1, prefix_content bs K + e⟩
        m = prefix_content bs K + e := by
      rw [hmK]
      exact scanned_M_eq_L _ hc
    constructor
    · rw [hcur, loaded_group_available, hL]
    · rw [hcur, loaded_group_available, hL, prefix_content_succ bs K hK]
      omega
  · intro sizes
    obtain ⟨chunks, r', hrun, hflat, hinv2⟩ :=
      run_chunks_spec ⟨bs, backend, ser_offset bs K, e, K + 1, prefix_content bs K + e⟩
        hc sizes r₀ 0 hinv
    have hflat2 : chunks.flatten =
        extractBytes ((all_content bs).take (prefix_content bs K + e)) 0
          (min sizes.sum (prefix_content bs K + e)) := hflat
    refine ⟨chunks, r', hrun, hflat2, ?_⟩
    rw [hflat2, extractBytes_length, List.length_take]
    omega

/-- Witness for C4: the example stream with `virtual_end` inside block 1
(`K = 1`, local end 1): only 4 of the 5 decompressed bytes are exposed. -/
theorem c4_virtual_end_clipping_witness :
    (blocks_wf wbs ∧ (∀ b ∈ wbs, wbackend b.payload = b.content) ∧ 1 < wbs.length ∧
      1 < (wbs.getD 1 dblock).content.length ∧ (1 : Nat) < 65536) ∧
    (∃ r₀, mk_reader 0 (ser_offset wbs 1 * 65536 + 1) (serialize_blocks wbs) = .ok r₀ ∧
      (∃ m, m ≤ 2 ∧
        r₀.curr_blocks = loaded_group (segment wbs 0 m)
          (min (prefix_content wbs 1 + 1) (prefix_content wbs m)) 0 ∧
        (m = 2 →
          r₀.curr_blocks.available_decompressed_size = prefix_content wbs 1 + 1 ∧
          r₀.curr_blocks.available_decompressed_size < prefix_content wbs 2)) ∧
      (∀ sizes : List Nat, ∃ chunks r',
        run_chunks wbackend sizes r₀ = .ok (chunks, r') ∧
        chunks.flatten =
          extractBytes ((all_content wbs).take (prefix_content wbs 1 + 1)) 0
            (min sizes.sum (prefix_content wbs 1 + 1)) ∧
        chunks.flatten.length ≤ prefix_content wbs 1 + 1)) :=
  ⟨⟨by unfold blocks_wf; decide, by decide, by decide, by decide, by decide⟩,
    c4_virtual_end_clipping wbs wbackend 1 1 (by unfold blocks_wf; decide) (by decide)
      (by decide) (by decide) (by decide)⟩

theorem wctx_wf : ctx_wf wctx :=
  ⟨by unfold blocks_wf; decide, by decide, Or.inl ⟨by decide, by decide, by decide⟩⟩

theorem wreader_inv : inv wctx wreader 0 :=
  ⟨0, 2, 0, false, by decide, by decide, by decide, by decide, by decide, by decide,
    by decide, by decide, by decide, by decide, by decide, by decide, by decide,
    by decide, by decide⟩

/-- C5: on any reachable reader state `get_next_chunk n` succeeds and returns a
buffer of length at most `n`; the length equals `n` whenever at least `n`
in-range bytes remain, equals exactly the remaining in-range byte count
(`c.L - k`) otherwise, and once the range is exhausted every subsequent call
returns an empty buffer (zero further bytes, no error). -/
theorem c5_chunk_size (c : range_ctx) (hc : ctx_wf c) (r : reader_state)
    (k n : Nat) (hinv : inv c r k) :
    ∃ chunk r', get_next_chunk c.backend n r = .ok (chunk, r') ∧
      chunk.length ≤ n ∧
      chunk.length = min n (c.L - k) ∧
      (n ≤ c.L - k → chunk.length = n) ∧
      (c.L - k < n → chunk.length = c.L - k) ∧
      (c.L ≤ k + n →
        ∀ n2, ∃ chunk2 r2, get_next_chunk c.backend n2 r' = .ok (chunk2, r2) ∧
          chunk2.length = 0) := by
  have hkL : k ≤ c.L := by
    obtain ⟨j, m, ρ, dec, h1, h2, h3, h4, h5, h6, h7, h8, h9, h10, h11, h12, h13,
      h14, h15⟩ := hinv
    have hm : scanned c m ≤ c.L := min_le_left _ _
    have hj : scanned c j ≤ c.L := min_le_left _ _
    omega
  obtain ⟨chunk, r', hg, hch, hlen, hinv2⟩ := get_next_chunk_spec c hc r k n hinv
  refine ⟨chunk, r', hg, by omega, hlen, by omega, by omega, ?_⟩
  intro hend n2
  have hk2 : k + min n (c.L - k) = c.L := by omega
  rw [hk2] at hinv2
  obtain ⟨chunk2, r2, hg2, hch2, hlen2, hinv3⟩ := get_next_chunk_spec c hc r' c.L n2 hinv2
  exact ⟨chunk2, r2, hg2, by omega⟩

/-- Witness for C5: requesting 7 bytes of the 5-byte example range returns the
5 remaining bytes and afterwards every call returns zero bytes. -/
theorem c5_chunk_size_witness :
    (ctx_wf wctx ∧ inv wctx wreader 0) ∧
    (∃ chunk r', get_next_chunk wctx.backend 7 wreader = .ok (chunk, r') ∧
      chunk.length ≤ 7 ∧
      chunk.length = min 7 (wctx.L - 0) ∧
      (7 ≤ wctx.L - 0 → chunk.length = 7) ∧
      (wctx.L - 0 < 7 → chunk.length = wctx.L - 0) ∧
      (wctx.L ≤ 0 + 7 →
        ∀ n2, ∃ chunk2 r2, get_next_chunk wctx.backend n2 r' = .ok (chunk2, r2) ∧
          chunk2.length = 0)) :=
  ⟨⟨wctx_wf, wreader_inv⟩, c5_chunk_size wctx wctx_wf wreader 0 7 wreader_inv⟩

/-- C8: on any reachable reader state `skip_bytes n` never raises an error: it
returns a state in which the logical read position has advanced by exactly `n`
when at least `n` in-range bytes remain, and otherwise has advanced to the end
of the range (the skip is silently capped at `c.L`). -/
theorem c8_skip_bytes (c : range_ctx) (hc : ctx_wf c) (r : reader_state)
    (k n : Nat) (hinv : inv c r k) :
    ∃ r', skip_bytes n r = .ok r' ∧
      inv c r' (k + min n (c.L - k)) ∧
      (n ≤ c.L - k → inv c r' (k + n)) ∧
      (c.L - k < n → inv c r' c.L) := by
  have hkL : k ≤ c.L := by
    obtain ⟨j, m, ρ, dec, h1, h2, h3, h4, h5, h6, h7, h8, h9, h10, h11, h12, h13,
      h14, h15⟩ := hinv
    have hm : scanned c m ≤ c.L := min_le_left _ _
    have hj : scanned c j ≤ c.L := min_le_left _ _
    omega
  obtain ⟨r', h1, h2⟩ := skip_bytes_spec c hc r k n hinv
  refine ⟨r', h1, h2, ?_, ?_⟩
  · intro h
    have he : k + min n (c.L - k) = k + n := by omega
    exact he ▸ h2
  · intro h
    have he : k + min n (c.L - k) = c.L := by omega
    exact he ▸ h2

/-- Witness for C8: skipping 9 bytes of the 5-byte example range succeeds and
caps the skip at the end of the range. -/
theorem c8_skip_bytes_witness :
    (ctx_wf wctx ∧ inv wctx wreader 0) ∧
    (∃ r', skip_bytes 9 wreader = .ok r' ∧
      inv wctx r' (0 + min 9 (wctx.L - 0)) ∧
      (9 ≤ wctx.L - 0 → inv wctx r' (0 + 9)) ∧
      (wctx.L - 0 < 9 → inv wctx r' wctx.L)) :=
  ⟨⟨wctx_wf, wreader_inv⟩, c8_skip_bytes wctx wctx_wf wreader 0 9 wreader_inv⟩

/-- C2 (code bug): the constructor validates the nonzero local-begin offset
against `h_compressed_offsets[1]` (the first block's COMPRESSED size) instead
of the first block's decompressed size.  For the block `bC2` (compressed size
2, decompressed size 10) the local offset 5 is valid per the spec
(5 < 10, first conjunct) yet construction fails with the bounds error
(second conjunct). -/
theorem c2_local_offset_bug :
    5 < bC2.content.length ∧
    (loaded_group [bC2] 10 0).h_compressed_offsets.getD 1 0 = 2 ∧
    mk_reader 5 (2 ^ 64 - 1) (serialize_blocks [bC2]) =
      .error (.cudfError "local part of virtual offset is out of bounds") :=
  ⟨by decide, by decide, by rfl⟩

theorem le_value_cons (b : Nat) (bs : List Nat) :
    le_value (b :: bs) = b + 256 * le_value bs := by
  unfold le_value
  rw [List.length_cons, List.range_succ_eq_map, List.map_cons, List.sum_cons]
  congr 1
  · simp
  rw [List.map_map, ← List.sum_map_mul_left]
  apply congrArg
  apply List.map_congr_left
  intro i hi
  simp only [Function.comp_def, List.getD_cons_succ, pow_succ]
  ring

/-- C3 (counterexample): `read_int` is a `std::memcpy` of the stream bytes into
an integer object — a native read, not an explicit byte-wise assembly.  On a
big-endian host the two bytes `[1, 0]` therefore parse as 256, not as the
little-endian value 1 prescribed by the spec. -/
theorem c3_native_read_counterexample :
    read_int_native true [1, 0] = 256 ∧ le_value [1, 0] = 1 ∧
    read_int_native true [1, 0] ≠ le_value [1, 0] := by
  decide

/-- C3 (amended): on a little-endian host — the configuration the source
explicitly assumes in its comment — the `memcpy`-based `read_int` yields the
positional little-endian sum `Σ byte[i] * 256^i` for every input buffer. -/
theorem c3_little_endian_on_le_host (bytes : List Nat) :
    read_int_native false bytes = le_value bytes ∧ read_int bytes = le_value bytes := by
  have h : read_int bytes = le_value bytes := by
    induction bytes with
    | nil => rfl
    | cons b bs ih => rw [read_int, le_value_cons, ih]
  exact ⟨h, h⟩

/-- Witness for C3 (amended) at the concrete buffer `[2, 1]` (value 258). -/
theorem c3_little_endian_on_le_host_witness :
    read_int_native false [2, 1] = le_value [2, 1] ∧ read_int [2, 1] = le_value [2, 1] :=
  c3_little_endian_on_le_host [2, 1]

/-- C6: `decompress` is idempotent per group population — a second call on the
same group is a no-op leaving every buffer unchanged (first conjunct) and does
not launch the device backend again (third conjunct, the call-count hook); the
memoization flag is set by `decompress` (second conjunct), cleared by `reset`
(fourth conjunct), and preserved by every other group operation
(`consume_bytes`, `add_block_offsets`, `read_block`; remaining conjuncts). -/
theorem c6_decompress_idempotent (backend : List Nat → List Nat)
    (g : decompression_blocks) :
    (g.decompress backend).decompress backend = g.decompress backend ∧
    (g.decompress backend).is_decompressed = true ∧
    decompression_blocks.launches_backend (g.decompress backend) = false ∧
    g.reset.is_decompressed = false ∧
    (∀ size g', g.consume_bytes size = .ok g' →
      g'.is_decompressed = g.is_decompressed) ∧
    (∀ h f, (g.add_block_offsets h f).is_decompressed = g.is_decompressed) ∧
    (∀ h s g' s', g.read_block h s = .ok (g', s') →
      g'.is_decompressed = g.is_decompressed) := by
  have h1 : (g.decompress backend).is_decompressed = true := by
    unfold decompression_blocks.decompress
    split
    · next h => exact h
    · rfl
  refine ⟨?_, h1, ?_, rfl, ?_, fun h f => rfl, ?_⟩
  · conv_lhs => rw [decompression_blocks.decompress]
    rw [if_pos h1]
  · unfold decompression_blocks.launches_backend
    rw [h1]
    rfl
  · intro size g' hok
    unfold decompression_blocks.consume_bytes at hok
    split at hok
    · cases hok
      rfl
    · cases hok
  · intro h s g' s' hok
    unfold decompression_blocks.read_block at hok
    split at hok
    · cases hok
    · split at hok
      · cases hok
      · cases hok
        rfl

/-- Witness for C6 at the example backend and the loaded example group. -/
theorem c6_decompress_idempotent_witness :
    ((loaded_group wbs 5 0).decompress wbackend).decompress wbackend =
      (loaded_group wbs 5 0).decompress wbackend ∧
    ((loaded_group wbs 5 0).decompress wbackend).is_decompressed = true ∧
    decompression_blocks.launches_backend
      ((loaded_group wbs 5 0).decompress wbackend) = false ∧
    (loaded_group wbs 5 0).reset.is_decompressed = false ∧
    (∀ size g', (loaded_group wbs 5 0).consume_bytes size = .ok g' →
      g'.is_decompressed = (loaded_group wbs 5 0).is_decompressed) ∧
    (∀ h f, ((loaded_group wbs 5 0).add_block_offsets h f).is_decompressed =
      (loaded_group wbs 5 0).is_decompressed) ∧
    (∀ h s g' s', (loaded_group wbs 5 0).read_block h s = .ok (g', s') →
      g'.is_decompressed = (loaded_group wbs 5 0).is_decompressed) :=
  c6_decompress_idempotent wbackend (loaded_group wbs 5 0)

theorem gp_init : gp_inv decompression_blocks.init := by
  unfold gp_inv
  decide

theorem gp_reset (g : decompression_blocks) : gp_inv g.reset :=
  Nat.le_refl 0

theorem gp_consume_ok (g : decompression_blocks) (size : Nat)
    (g' : decompression_blocks) (hok : g.consume_bytes size = .ok g')
    (h : gp_inv g) : gp_inv g' := by
  unfold decompression_blocks.consume_bytes at hok
  split at hok
  · next hle =>
    cases hok
    unfold decompression_blocks.remaining_size at hle
    unfold gp_inv at h ⊢
    show g.read_pos + size ≤ g.available_decompressed_size
    omega
  · cases hok

theorem gp_decompress (bk : List Nat → List Nat) (g : decompression_blocks)
    (h : gp_inv g) : gp_inv (g.decompress bk) := by
  unfold decompression_blocks.decompress
  split
  · exact h
  · exact h

theorem read_block_fields (g : decompression_blocks) (h : bgzip_header)
    (s : ByteStream) (g' : decompression_blocks) (s' : ByteStream)
    (hok : g.read_block h s = .ok (g', s')) :
    g'.read_pos = g.read_pos ∧
    g'.available_decompressed_size = g.available_decompressed_size := by
  unfold decompression_blocks.read_block at hok
  split at hok
  · cases hok
  · split at hok
    · cases hok
    · cases hok
      exact ⟨rfl, rfl⟩

theorem rp_read_chunk_loop (requested fuel : Nat) :
    ∀ (r r' : reader_state),
      read_chunk_loop requested fuel r = .ok r' → rp_inv r → rp_inv r' := by
  induction fuel with
  | zero =>
    intro r r' hok h
    unfold read_chunk_loop at hok
    cases hok
  | succ fuel ih =>
    intro r r' hok h
    unfold read_chunk_loop at hok
    split at hok
    · split at hok
      · cases hok
        exact h
      · split at hok
        · cases hok
        · rename_i s1 hs1
          split at hok
          · cases hok
            exact h
          · split at hok
            · cases hok
            · rename_i header s2 hhd
              split at hok
              · cases hok
              · rename_i cb1 s3 hbk
                split at hok
                · cases hok
                · rename_i footer s4 hft
                  have hf := read_block_fields r.curr_blocks header s2 cb1 s3 hbk
                  have h1 : gp_inv r.curr_blocks := h.1
                  split at hok
                  · cases hok
                    refine ⟨?_, h.2⟩
                    unfold gp_inv at h1 ⊢
                    show cb1.read_pos ≤
                      cb1.available_decompressed_size + r.local_end
                    omega
                  · refine ih _ _ hok ⟨?_, h.2⟩
                    unfold gp_inv at h1 ⊢
                    show cb1.read_pos ≤
                      cb1.available_decompressed_size + footer.decompressed_size
                    omega
    · cases hok
      exact h

theorem rp_read_next (rs : Nat) (r r' : reader_state)
    (hok : read_next_compressed_chunk rs r = .ok r') (h : rp_inv r) :
    rp_inv r' := by
  unfold read_next_compressed_chunk at hok
  exact rp_read_chunk_loop rs _ _ _ hok ⟨gp_reset _, h.1⟩

theorem rp_mk_reader (vb ve : Nat) (data : List Nat) (r : reader_state)
    (hok : mk_reader vb ve data = .ok r) : rp_inv r := by
  simp only [mk_reader] at hok
  split at hok
  · cases hok
  · rename_i r1 h1
    have hr1 : rp_inv r1 := rp_read_next _ _ _ h1 ⟨gp_init, gp_init⟩
    split at hok
    · split at hok
      · split at hok
        · cases hok
        · rename_i cb hcb
          cases hok
          exact ⟨gp_consume_ok _ _ _ hcb hr1.1, hr1.2⟩
      · cases hok
    · cases hok
      exact hr1

theorem rp_get_next (bk : List Nat → List Nat) (n : Nat) (r : reader_state)
    (chunk : List Nat) (r' : reader_state)
    (hok : get_next_chunk bk n r = .ok (chunk, r')) (h : rp_inv r) :
    rp_inv r' := by
  simp only [get_next_chunk] at hok
  split at hok
  · split at hok
    · cases hok
    · rename_i cb2 hcb
      cases hok
      exact ⟨gp_consume_ok _ _ _ hcb (gp_decompress _ _ h.1), h.2⟩
  · split at hok
    · cases hok
    · rename_i r1 h1
      have hr1 : rp_inv r1 := rp_read_next _ _ _ h1 h
      split at hok
      · cases hok
      · rename_i pb2 hpb
        split at hok
        · cases hok
        · rename_i cb2 hcb
          cases hok
          exact ⟨gp_consume_ok _ _ _ hcb (gp_decompress _ _ hr1.1),
            gp_consume_ok _ _ _ hpb (gp_decompress _ _ hr1.2)⟩

theorem rp_skip_loop (fuel : Nat) :
    ∀ (n : Nat) (r : reader_state) (n' : Nat) (r' : reader_state),
      skip_loop fuel n r = .ok (n', r') → rp_inv r → rp_inv r' := by
  induction fuel with
  | zero =>
    intro n r n' r' hok h
    unfold skip_loop at hok
    cases hok
  | succ fuel ih =>
    intro n r n' r' hok h
    unfold skip_loop at hok
    split at hok
    · split at hok
      · cases hok
      · rename_i cb hcb
        split at hok
        · cases hok
        · rename_i r1 h1
          have hr1 : rp_inv r1 :=
            rp_read_next _ _ _ h1 ⟨gp_consume_ok _ _ _ hcb h.1, h.2⟩
          split at hok
          · cases hok
            exact hr1
          · split at hok
            · cases hok
            · rename_i s1 hs1
              split at hok
              · cases hok
                exact hr1
              · exact ih _ _ _ _ hok hr1
    · cases hok
      exact h

theorem rp_skip_bytes (n : Nat) (r r' : reader_state)
    (hok : skip_bytes n r = .ok r') (h : rp_inv r) : rp_inv r' := by
  unfold skip_bytes at hok
  split at hok
  · cases hok
  · rename_i rs r1 h1
    have hr1 : rp_inv r1 := rp_skip_loop _ _ _ _ _ h1 h
    split at hok
    · cases hok
    · rename_i cb hcb
      cases hok
      exact ⟨gp_consume_ok _ _ _ hcb hr1.1, hr1.2⟩

/-- C9: on every state satisfying the invariant `read_pos ≤
available_decompressed_size` for both block groups, the invariant is
established by reader construction (first conjunct, for every constructor
input) and preserved by `consume_bytes`, `reset`, `read_next_compressed_chunk`,
`get_next_chunk` and `skip_bytes`; `consume_bytes` rejects any size exceeding
the remaining unread bytes (second conjunct). -/
theorem c9_read_pos_invariant (r : reader_state) (hr : rp_inv r) :
    (∀ vb ve data r0, mk_reader vb ve data = .ok r0 → rp_inv r0) ∧
    (∀ size, r.curr_blocks.remaining_size < size →
      r.curr_blocks.consume_bytes size = .error (.cudfError "out of bounds")) ∧
    (∀ size g', r.curr_blocks.consume_bytes size = .ok g' → gp_inv g') ∧
    gp_inv r.curr_blocks.reset ∧
    (∀ rs r', read_next_compressed_chunk rs r = .ok r' → rp_inv r') ∧
    (∀ bk n chunk r', get_next_chunk bk n r = .ok (chunk, r') → rp_inv r') ∧
    (∀ n r', skip_bytes n r = .ok r' → rp_inv r') := by
  refine ⟨fun vb ve data r0 h0 => rp_mk_reader vb ve data r0 h0, ?_, ?_, gp_reset _,
    fun rs r' h' => rp_read_next rs r r' h' hr,
    fun bk n chunk r' h' => rp_get_next bk n r chunk r' h' hr,
    fun n r' h' => rp_skip_bytes n r r' h' hr⟩
  · intro size hlt
    unfold decompression_blocks.consume_bytes
    rw [if_neg (by omega)]
  · intro size g' hok
    exact gp_consume_ok _ _ _ hok hr.1

/-- Witness for C9 at the example reader state. -/
theorem c9_read_pos_invariant_witness :
    rp_inv wreader ∧
    ((∀ vb ve data r0, mk_reader vb ve data = .ok r0 → rp_inv r0) ∧
    (∀ size, wreader.curr_blocks.remaining_size < size →
      wreader.curr_blocks.consume_bytes size =
        .error (.cudfError "out of bounds")) ∧
    (∀ size g', wreader.curr_blocks.consume_bytes size = .ok g' → gp_inv g') ∧
    gp_inv wreader.curr_blocks.reset ∧
    (∀ rs r', read_next_compressed_chunk rs wreader = .ok r' → rp_inv r') ∧
    (∀ bk n chunk r', get_next_chunk bk n wreader = .ok (chunk, r') →
      rp_inv r') ∧
    (∀ n r', skip_bytes n wreader = .ok r' → rp_inv r')) :=
  ⟨⟨by unfold gp_inv; decide, by unfold gp_inv; decide⟩,
    c9_read_pos_invariant wreader ⟨by unfold gp_inv; decide, by unfold gp_inv; decide⟩⟩

theorem chain_append_le (l : List Nat) (x : Nat) (hc : l.Chain' (· ≤ ·))
    (hx : l.getLastD 0 ≤ x) : (l ++ [x]).Chain' (· ≤ ·) := by
  rw [List.chain'_append]
  refine ⟨hc, List.chain'_singleton x, ?_⟩
  intro a ha b hb
  simp only [List.head?_cons, Option.mem_def, Option.some.injEq] at hb
  rw [Option.mem_def] at ha
  rw [List.getLastD_eq_getLast?, ha] at hx
  simp only [Option.getD_some] at hx
  omega

theorem tbl_init : tbl_inv decompression_blocks.init := by
  unfold tbl_inv
  refine ⟨rfl, by decide, rfl, rfl, ?_, ?_⟩
  · exact List.chain'_singleton 0
  · exact List.chain'_singleton 0

theorem tbl_reset (g : decompression_blocks) (h : tbl_inv g) : tbl_inv g.reset := by
  obtain ⟨h1, h2, h3, h4, h5, h6⟩ := h
  unfold tbl_inv decompression_blocks.reset
  rw [h3, h4]
  exact ⟨rfl, by decide, rfl, rfl, List.chain'_singleton 0, List.chain'_singleton 0⟩

theorem tbl_add (g : decompression_blocks) (hdr : bgzip_header) (f : bgzip_footer)
    (hg : tbl_inv g) (hd : 0 ≤ hdr.data_size) :
    tbl_inv (g.add_block_offsets hdr f) := by
  obtain ⟨h1, h2, h3, h4, h5, h6⟩ := hg
  refine ⟨?_, ?_, ?_, ?_, ?_, ?_⟩
  · show (g.h_compressed_offsets ++ [_]).length = (g.h_decompressed_offsets ++ [_]).length
    simp [h1]
  · show 1 ≤ (g.h_compressed_offsets ++ [_]).length
    rw [List.length_append]
    omega
  · show (g.h_compressed_offsets ++ [_]).take 1 = [0]
    rw [List.take_append_of_le_length h2, h3]
  · show (g.h_decompressed_offsets ++ [_]).take 1 = [0]
    rw [List.take_append_of_le_length (by omega), h4]
  · show (g.h_compressed_offsets ++
      [((g.compressed_size : Int) + hdr.data_size).toNat]).Chain' (· ≤ ·)
    refine chain_append_le _ _ h5 ?_
    show g.compressed_size ≤ ((g.compressed_size : Int) + hdr.data_size).toNat
    omega
  · show (g.h_decompressed_offsets ++
      [g.decompressed_size + f.decompressed_size]).Chain' (· ≤ ·)
    refine chain_append_le _ _ h6 ?_
    exact Nat.le_add_right _ _

/-- C10: the host offset tables of a block group satisfying the table
invariant — equal lengths of at least one, leading 0, monotone nondecreasing —
keep satisfying it across the group operations: it holds for the freshly
constructed group, is preserved by `reset` and by `add_block_offsets` (for the
headers that reach it, whose `data_size` is nonnegative), and it makes
`num_blocks` (and with it `compressed_size`, `decompressed_size`) well defined:
both tables have exactly `num_blocks + 1` entries. -/
theorem c10_offset_tables (g : decompression_blocks) (hdr : bgzip_header)
    (f : bgzip_footer) (hg : tbl_inv g) (hd : 0 ≤ hdr.data_size) :
    tbl_inv decompression_blocks.init ∧
    tbl_inv g.reset ∧
    tbl_inv (g.add_block_offsets hdr f) ∧
    g.h_compressed_offsets.length = g.num_blocks + 1 ∧
    g.h_decompressed_offsets.length = g.num_blocks + 1 := by
  obtain ⟨h1, h2, h3, h4, h5, h6⟩ := hg
  refine ⟨tbl_init, tbl_reset g ⟨h1, h2, h3, h4, h5, h6⟩,
    tbl_add g hdr f ⟨h1, h2, h3, h4, h5, h6⟩ hd, ?_, ?_⟩
  · unfold decompression_blocks.num_blocks
    omega
  · unfold decompression_blocks.num_blocks
    omega

theorem wgroup_tbl : tbl_inv (loaded_group wbs 5 0) :=
  ⟨by decide, by decide, by decide, by decide,
    List.Chain.cons (by decide) (List.Chain.cons (by decide) List.Chain.nil),
    List.Chain.cons (by decide) (List.Chain.cons (by decide) List.Chain.nil)⟩

/-- Witness for C10 at the loaded example group, a well-formed header
(block_size 30, extra_length 6, so data_size 4) and a footer of decompressed
size 7. -/
theorem c10_offset_tables_witness :
    (tbl_inv (loaded_group wbs 5 0) ∧
      (0 : Int) ≤ bgzip_header.data_size ⟨30, 6⟩) ∧
    (tbl_inv decompression_blocks.init ∧
      tbl_inv (loaded_group wbs 5 0).reset ∧
      tbl_inv ((loaded_group wbs 5 0).add_block_offsets ⟨30, 6⟩ ⟨7⟩) ∧
      (loaded_group wbs 5 0).h_compressed_offsets.length =
        (loaded_group wbs 5 0).num_blocks + 1 ∧
      (loaded_group wbs 5 0).h_decompressed_offsets.length =
        (loaded_group wbs 5 0).num_blocks + 1) :=
  ⟨⟨wgroup_tbl, by decide⟩,
    c10_offset_tables (loaded_group wbs 5 0) ⟨30, 6⟩ ⟨7⟩ wgroup_tbl (by decide)⟩

theorem sread_error_io (n : Nat) (s : ByteStream) (e : Err)
    (h : sread n s = .error e) : e = .ioError := by
  unfold sread at h
  split at h
  · cases h
    rfl
  · split at h
    · cases h
    · cases h
      rfl

theorem sread_ok_fields (n : Nat) (s : ByteStream) (b : List Nat)
    (s' : ByteStream) (h : sread n s = .ok (b, s')) :
    b = extractBytes s.data s.pos n ∧ s'.data = s.data ∧ s'.pos = s.pos + n := by
  unfold sread at h
  split at h
  · cases h
  · split at h
    · cases h
      exact ⟨rfl, rfl, rfl⟩
    · cases h

theorem scan_subfields_cases (el : Nat) (fuel : Nat) :
    ∀ (eo : Nat) (s : ByteStream),
      (∃ hd s', scan_subfields el fuel eo s = .ok (hd, s') ∧
        hd.extra_length = el ∧
        ∃ p, hd.block_size = read_int (extractBytes s.data p 2) + 1) ∨
      scan_subfields el fuel eo s = .error .ioError ∨
      scan_subfields el fuel eo s = .error (.cudfError "invalid extra field length") ∨
      scan_subfields el fuel eo s = .error (.cudfError "malformed BGZIP extra subfield") ∨
      scan_subfields el fuel eo s = .error (.cudfError "missing BGZIP size extra subfield") := by
  induction fuel with
  | zero =>
    intro eo s
    right
    left
    rfl
  | succ fuel ih =>
    intro eo s
    simp only [scan_subfields]
    split
    · split
      · right
        right
        left
        rfl
      · rcases hr : sread 4 s with e | ⟨buf, s1⟩
        · have he := sread_error_io _ _ _ hr
          subst he
          right
          left
          rfl
        · obtain ⟨hb, hd1, hp1⟩ := sread_ok_fields _ _ _ _ hr
          split
          · rename_i e heq
            cases heq
          · rename_i bufx s1x heq
            cases heq
            split
            · split
              · rcases h2 : sread 2 s1 with e2 | ⟨buf2, s2⟩
                · have he2 := sread_error_io _ _ _ h2
                  subst he2
                  split
                  · rename_i e3 heq2
                    cases heq2
                    right
                    left
                    rfl
                  · rename_i buf3 s3 heq2
                    cases heq2
                · obtain ⟨hb2, hd2, hp2⟩ := sread_ok_fields _ _ _ _ h2
                  split
                  · rename_i e3 heq2
                    cases heq2
                  · rename_i buf3 s3 heq2
                    cases heq2
                    left
                    refine ⟨_, _, rfl, rfl, s1.pos, ?_⟩
                    show read_int buf2 + 1 = read_int (extractBytes s.data s1.pos 2) + 1
                    rw [hb2, hd1]
              · right
                right
                right
                left
                rfl
            · have H := ih (((eo + 4) % 65536 + read_int (buf.drop 2)) % 65536)
                (seekCur ((read_int (buf.drop 2) : Nat) : Int) s1)
              rcases H with ⟨hd, s', hsc, hel, p, hbs⟩ | h | h | h | h
              · left
                refine ⟨hd, s', hsc, hel, p, ?_⟩
                rwa [show (seekCur ((read_int (buf.drop 2) : Nat) : Int) s1).data =
                  s.data from hd1] at hbs
              · right; left; exact h
              · right; right; left; exact h
              · right; right; right; left; exact h
              · right; right; right; right; exact h
    · right
      right
      right
      right
      rfl

/-- C7 (counterexample): a header whose magic is valid and whose first extra
subfield carries the BGZIP tag 66/67 — so none of the three failure conditions
the claim lists holds (the magic matches, the remaining extra region 6 − 0 = 6
never goes negative, and the scan finds the tag immediately) — yet
`read_header` fails, because the tagged subfield declares size 4 instead of 2:
an error mode absent from the claim's enumeration. -/
theorem c7_subfield_size_counterexample :
    cexData.take 4 = [31, 139, 8, 4] ∧
    read_int (extractBytes cexData 10 2) = 6 ∧
    cexData.getD 12 0 = 66 ∧ cexData.getD 13 0 = 67 ∧
    read_int (extractBytes cexData 14 2) = 4 ∧
    read_header { data := cexData, pos := 0, eofbit := false } =
      .error (.cudfError "malformed BGZIP extra subfield") :=
  ⟨by decide, by decide, by decide, by decide, by decide, by rfl⟩

/-- C7 (amended): `read_header` either succeeds — then the 4-byte magic
matched, the returned `extra_length` is the 16-bit little-endian field at
header bytes 10..11, and the returned `block_size` is a 16-bit little-endian
payload read from the stream plus one — or it fails with one of exactly five
errors: a stream error on a truncated input, "malformed BGZIP header" (magic
mismatch), "invalid extra field length" (remaining extra region below the
4-byte subfield header), "malformed BGZIP extra subfield" (tagged subfield
whose declared size is not 2 — the mode missing from the claim), or "missing
BGZIP size extra subfield" (scan exhausted without finding the tag). -/
theorem c7_read_header_error_modes (s : ByteStream) :
    (∃ hd s', read_header s = .ok (hd, s') ∧
      (extractBytes s.data s.pos 12).take 4 = [31, 139, 8, 4] ∧
      hd.extra_length = read_int (((extractBytes s.data s.pos 12).drop 10).take 2) ∧
      ∃ p, hd.block_size = read_int (extractBytes s.data p 2) + 1) ∨
    read_header s = .error .ioError ∨
    read_header s = .error (.cudfError "malformed BGZIP header") ∨
    read_header s = .error (.cudfError "invalid extra field length") ∨
    read_header s = .error (.cudfError "malformed BGZIP extra subfield") ∨
    read_header s = .error (.cudfError "missing BGZIP size extra subfield") := by
  unfold read_header
  rcases hr : sread 12 s with e | ⟨buffer, s1⟩
  · have he := sread_error_io _ _ _ hr
    subst he
    split
    · rename_i e2 heq
      cases heq
      right
      left
      rfl
    · rename_i buf2 s2 heq
      cases heq
  · obtain ⟨hb, hd1, hp1⟩ := sread_ok_fields _ _ _ _ hr
    split
    · rename_i e2 heq
      cases heq
    · rename_i buf2 s2 heq
      cases heq
      split
      · rename_i hmagic
        rcases scan_subfields_cases (read_int ((buffer.drop 10).take 2))
            (s1.data.length + 1) 0 s1 with ⟨hd, s', hsc, hel, p, hbs⟩ | h | h | h | h
        · left
          refine ⟨hd, s', hsc, ?_, ?_, p, ?_⟩
          · rw [← hb]
            exact hmagic
          · rw [← hb]
            exact hel
          · rwa [hd1] at hbs
        · right; left; exact h
        · right; right; right; left; exact h
        · right; right; right; right; left; exact h
        · right; right; right; right; right; exact h
      · right
        right
        left
        rfl

/-- Witness for C7 (amended) at the counterexample stream, where the outcome
is the unlisted "malformed BGZIP extra subfield" error. -/
theorem c7_read_header_error_modes_witness :
    (∃ hd s', read_header { data := cexData, pos := 0, eofbit := false } = .ok (hd, s') ∧
      (extractBytes cexData 0 12).take 4 = [31, 139, 8, 4] ∧
      hd.extra_length = read_int (((extractBytes cexData 0 12).drop 10).take 2) ∧
      ∃ p, hd.block_size = read_int (extractBytes cexData p 2) + 1) ∨
    read_header { data := cexData, pos := 0, eofbit := false } = .error .ioError ∨
    read_header { data := cexData, pos := 0, eofbit := false } =
      .error (.cudfError "malformed BGZIP header") ∨
    read_header { data := cexData, pos := 0, eofbit := false } =
      .error (.cudfError "invalid extra field length") ∨
    read_header { data := cexData, pos := 0, eofbit := false } =
      .error (.cudfError "malformed BGZIP extra subfield") ∨
    read_header { data := cexData, pos := 0, eofbit := false } =
      .error (.cudfError "missing BGZIP size extra subfield") :=
  c7_read_header_error_modes { data := cexData, pos := 0, eofbit := false }

end BgzipVerify
